import Mathlib

/-!
Verification of the virtual-ta retrieval-augmented QA service.

This file gives a shallow embedding of the core logic of the repository
(`src/app/ingest.py`, `src/app/utils.py`, `src/app/main.py`,
`src/app/scrape_discourse.py`) and proves or refutes the specification
claims about it.  Strings are modelled as `List Char`, Python integers as
`Nat`/`Int`, timestamps as `Int`, and the external providers (OpenAI
embeddings/completions, Qdrant, the Discourse HTTP API) as oracle
functions supplied in an environment record.  Exceptions are modelled
with `Except`.
-/

namespace VirtualTA

/-! ## Sentence-aware chunker — `chunk_text` in `src/app/ingest.py` lines 19-41 -/

/-- Terminal punctuation of the sentence regex `[^.!?]*[.!?]`. -/
def isTermChar (c : Char) : Bool := c = '.' || c = '!' || c = '?'

/-- ASCII whitespace recognised by Python `str.strip` / `\s`
(space, tab, newline, carriage return, vertical tab, form feed). -/
def isPySpace (c : Char) : Bool :=
  c = ' ' || c = '\t' || c = '\n' || c = '\r' || c = '\x0b' || c = '\x0c'

/-- Model of `re.findall(r'[^.!?]*[.!?]', text, re.DOTALL)`: consecutive
maximal runs of non-terminator characters, each together with its single
terminator.  `acc` is the pending run; a trailing run without a
terminator is discarded, exactly as the regex drops it. -/
def splitSentencesAux (acc : List Char) : List Char → List (List Char)
  | [] => []
  | c :: cs =>
    if isTermChar c then (acc ++ [c]) :: splitSentencesAux [] cs
    else splitSentencesAux (acc ++ [c]) cs

/-- Sentence decomposition of the input text (the regex match list). -/
def splitSentences (t : List Char) : List (List Char) := splitSentencesAux [] t

/-- Characters of the input left uncovered by the regex: the trailing run
after the last terminator (empty when the text ends with a terminator). -/
def sentenceRestAux (acc : List Char) : List Char → List Char
  | [] => acc
  | c :: cs =>
    if isTermChar c then sentenceRestAux [] cs
    else sentenceRestAux (acc ++ [c]) cs

/-- Trailing content of `t` not covered by any regex sentence. -/
def sentenceRest (t : List Char) : List Char := sentenceRestAux [] t

/-- Python `str.lstrip()` on the ASCII whitespace set. -/
def lstripChars (l : List Char) : List Char := l.dropWhile isPySpace

/-- Python `str.rstrip()` on the ASCII whitespace set. -/
def rstripChars (l : List Char) : List Char := (l.reverse.dropWhile isPySpace).reverse

/-- Python `str.strip()` on the ASCII whitespace set. -/
def stripChars (l : List Char) : List Char := lstripChars (rstripChars l)

/-- Last `n` characters of `l` (`l[-n:]` for `n > 0`). -/
def takeLast (n : Nat) (l : List Char) : List Char := l.drop (l.length - n)

/-- Python slice `l[-n:]` for a non-negative `n`: for `n = 0` this is the
whole string (`l[-0:] = l[0:] = l`), otherwise the last `min n (length l)`
characters. -/
def pyTailSlice (n : Nat) (l : List Char) : List Char :=
  if n = 0 then l else takeLast n l

/-- The overlap seed of `chunk_text` (ingest.py line 35):
`current_chunk[-overlap:] if overlap < len(current_chunk) else current_chunk`. -/
def overlapSlice (overlap : Nat) (cur : List Char) : List Char :=
  if overlap < cur.length then pyTailSlice overlap cur else cur

/-- The accumulation loop of `chunk_text` (ingest.py lines 28-39) over the
sentence list, with `cur` the current buffer.  A sentence is appended when
the buffer plus sentence fits in `size` or the buffer is empty; otherwise
the stripped buffer is emitted and a fresh buffer is seeded from the
overlap slice of the unstripped buffer followed by the sentence.  The
final non-empty buffer is emitted stripped. -/
def chunkLoop (size overlap : Nat) : List (List Char) → List Char → List (List Char)
  | [], cur => if cur.isEmpty then [] else [stripChars cur]
  | s :: rest, cur =>
    if cur.length + s.length ≤ size || cur.isEmpty then
      chunkLoop size overlap rest (cur ++ s)
    else
      stripChars cur :: chunkLoop size overlap rest (overlapSlice overlap cur ++ s)

/-- `chunk_text(text, size, overlap)` from `src/app/ingest.py` lines 19-41. -/
def chunk_text (t : List Char) (size overlap : Nat) : List (List Char) :=
  chunkLoop size overlap (splitSentences t) []

/-- The overlap prefix the code actually produces for the chunk following
chunk `c` of the output: the entire previous chunk when `overlap` is `0`
(Python `s[-0:]` is the whole string) or when the previous chunk is no
longer than `overlap`; otherwise the last `overlap` characters of the
previous chunk with their leading whitespace removed (the seed is cut
from the unstripped buffer, whose extra leading whitespace is stripped
when the next chunk is emitted). -/
def expectedSeed (overlap : Nat) (c : List Char) : List Char :=
  if overlap = 0 ∨ c.length ≤ overlap then c else lstripChars (takeLast overlap c)

/-! ## Point-id assignment — `ingest_tds_data` / `ingest_discourse_data`
(`src/app/ingest.py` lines 48-105 and 149-218) -/

/-- The id counter of an ingestion run: starting from `seed`, each chunk
whose embedding succeeds (flag `true`) receives the current counter value
and increments it; a failed embedding (`continue` in the code) is skipped
without consuming an id.  `ingest_tds_data` runs this with seed `0`
(line 53), `ingest_discourse_data` with seed `3000` (line 196); the
counter is threaded across all files of a family. -/
def assignPointIds (seed : Nat) : List Bool → List Nat
  | [] => []
  | ok :: rest =>
    if ok then seed :: assignPointIds (seed + 1) rest
    else assignPointIds seed rest

/-! ## Base64 decoding — model of Python `base64.b64decode` (used by
`src/app/utils.py` line 4 and `src/app/main.py` line 44) -/

/-- Value of a base64 alphabet character, `none` for characters outside
the alphabet (which CPython's non-strict decoder silently discards). -/
def b64CharVal (c : Char) : Option Nat :=
  if 'A' ≤ c ∧ c ≤ 'Z' then some (c.toNat - 65)
  else if 'a' ≤ c ∧ c ≤ 'z' then some (c.toNat - 97 + 26)
  else if '0' ≤ c ∧ c ≤ '9' then some (c.toNat - 48 + 52)
  else if c = '+' then some 62
  else if c = '/' then some 63
  else none

/-- Model of CPython `binascii.a2b_base64` in non-strict mode (what
`base64.b64decode` calls with `validate=False`): walk the characters
keeping the position inside the current quad (`qp`), the pending bits
(`leftc`), the pad count and the output bytes; non-alphabet characters
are skipped, a pad at quad position at least 2 that completes the quad
ends decoding, and leftover quad positions 1-3 at the end of input raise
`binascii.Error` (modelled as `Except.error`). -/
def b64decodeAux : List Char → Nat → Nat → Nat → List Nat → Except Unit (List Nat)
  | [], qp, _, _, out => if qp = 0 then .ok out else .error ()
  | c :: cs, qp, leftc, pads, out =>
    if c = '=' then
      if 2 ≤ qp then
        if 4 ≤ qp + (pads + 1) then .ok out
        else b64decodeAux cs qp leftc (pads + 1) out
      else b64decodeAux cs qp leftc pads out
    else
      match b64CharVal c with
      | none => b64decodeAux cs qp leftc pads out
      | some v =>
        match qp with
        | 0 => b64decodeAux cs 1 v pads out
        | 1 => b64decodeAux cs 2 (v % 16) pads (out ++ [leftc * 4 + v / 16])
        | 2 => b64decodeAux cs 3 (v % 4) pads (out ++ [leftc * 16 + v / 4])
        | _ => b64decodeAux cs 0 0 pads (out ++ [leftc * 64 + v])

/-- Python `base64.b64decode(s)`: decoded bytes, or an error for invalid
input (wrong number of data characters / incorrect padding). -/
def b64decode (s : List Char) : Except Unit (List Nat) :=
  b64decodeAux s 0 0 0 []

/-! ## Generic sequence matching helpers (used to model `bytes.startswith`,
`in`, and the regular expressions of `src/app/main.py`) -/

/-- Match the literal sequence `pat` at the head of `l`; on success return
the remainder of `l`. -/
def expectSeq {α : Type} [DecidableEq α] : List α → List α → Option (List α)
  | [], l => some l
  | _ :: _, [] => none
  | p :: ps, c :: cs => if c = p then expectSeq ps cs else none

/-- Does `l` begin with `pat`?  (Python `startswith`.) -/
def beginsWith {α : Type} [DecidableEq α] (pat l : List α) : Bool :=
  (expectSeq pat l).isSome

/-- Does `pat` occur contiguously anywhere in `l`?  (Python `in`.) -/
def hasSub {α : Type} [DecidableEq α] (pat : List α) : List α → Bool
  | [] => beginsWith pat ([] : List α)
  | c :: cs => beginsWith pat (c :: cs) || hasSub pat cs

/-! ## `get_image_mime_type` — `src/app/utils.py` -/

/-- `get_image_mime_type(b64str)` from `src/app/utils.py`.  The function
calls `base64.b64decode` with no exception handling, so a decode failure
propagates to the caller (modelled by `Except.error`); otherwise the
first twelve decoded bytes select the mime type. -/
def get_image_mime_type (b64str : List Char) : Except Unit (List Char) :=
  match b64decode b64str with
  | .error e => .error e
  | .ok bytes =>
    let header := bytes.take 12
    if beginsWith [137, 80, 78, 71, 13, 10, 26, 10] header then .ok "image/png".toList
    else if beginsWith [255, 216] header then .ok "image/jpeg".toList
    else if beginsWith [82, 73, 70, 70] header && hasSub [87, 69, 66, 80] header then
      .ok "image/webp".toList
    else .ok "application/octet-stream".toList

/-! ## Query endpoint — `src/app/main.py` -/

/-- A source id parsed from the model's `SOURCES:` line: numeric tokens
become integers, anything else stays a literal string
(main.py lines 158-165). -/
inductive PId
  | num (n : Nat)
  | str (s : List Char)
deriving DecidableEq

/-- A retrieved passage: Qdrant point id plus payload text and source url
(the `contexts_with_ids` entries of main.py lines 92-98). -/
structure Passage where
  id : Nat
  text : List Char
  source : List Char
deriving DecidableEq

/-- A `links` entry of the response model (main.py lines 25-27). -/
structure AnswerSourceLink where
  url : List Char
  text : List Char
deriving DecidableEq

/-- The query response model (main.py lines 29-31). -/
structure QueryResponse where
  answer : List Char
  links : List AnswerSourceLink
deriving DecidableEq

/-- Outcome of a failed request: an `HTTPException` raised with a status
code, or an exception that escapes the handler (which the web framework
turns into a 500 Internal Server Error). -/
inductive HErr
  | http (code : Nat)
  | unhandled
deriving DecidableEq

/-- External provider calls the handler can make, in order. -/
inductive PCall
  | chatCompletion
  | embeddingCall
  | searchCall
deriving DecidableEq

/-- The request model (main.py lines 21-23). -/
structure QueryRequest where
  question : List Char
  image : Option (List Char)

/-- Oracles for the external collaborators: the vision completion pass,
the embedding provider, the Qdrant search, and the answer completion
(whose content may be `None`). -/
structure Env where
  describeImage : List Char → List Char
  embedVec : List Char → List Int
  searchHits : List Int → List Passage
  completionContent : List Char → Option (List Char)

/-- Decimal value of a digit string (Python `int(s)` on an `isdigit` string). -/
def natOfDigits (l : List Char) : Nat :=
  l.foldl (fun acc c => acc * 10 + (c.toNat - 48)) 0

/-- Parse the comma-separated id list inside the brackets of the
`SOURCES:` line (main.py lines 155-169): empty content yields no ids;
otherwise each comma-separated token is stripped and becomes an integer
id if it `isdigit`, or a literal string id otherwise. -/
def parseSourceIds (inner : List Char) : List PId :=
  if inner.isEmpty then []
  else (inner.splitOn ',').map fun s =>
    let c := stripChars s
    if c ≠ [] ∧ c.all Char.isDigit then PId.num (natOfDigits c) else PId.str c

/-- Lookup in the `id_to_source` dict of main.py line 180.  The dict maps
each passage id to its link, later passages overriding earlier ones on a
duplicate id (Python dict comprehension), hence the reversed search; a
string id never equals an integer point id. -/
def dictGet (contexts : List Passage) : PId → Option AnswerSourceLink
  | .str _ => none
  | .num n =>
    match contexts.reverse.find? (fun p => p.id == n) with
    | some p => some ⟨p.source, p.text⟩
    | none => none

/-- The links comprehension of main.py line 181: referenced ids projected
back onto the retrieved set, ids not present silently dropped. -/
def buildLinks (contexts : List Passage) (ids : List PId) : List AnswerSourceLink :=
  ids.filterMap (dictGet contexts)

/-- The literal `SOURCES:` of the citation patterns. -/
def sourcesLit : List Char := ['S', 'O', 'U', 'R', 'C', 'E', 'S', ':']

/-- Consume characters up to the first `]` (the lazy group `(.*?)` of
`SOURCES:\s*\[(.*?)\]` followed by `\]`); without `re.DOTALL` the dot
does not match a newline, so a newline before the bracket fails the
match. -/
def takeUntilClose : List Char → Option (List Char × List Char)
  | [] => none
  | c :: cs =>
    if c = ']' then some ([], cs)
    else if c = '\n' then none
    else
      match takeUntilClose cs with
      | some (a, b) => some (c :: a, b)
      | none => none

/-- Match `SOURCES:\s*\[(.*?)\]` anchored at the head of `l`, returning
the bracket content and the remainder after the closing bracket. -/
def matchSourcesHere (l : List Char) : Option (List Char × List Char) :=
  match expectSeq sourcesLit l with
  | none => none
  | some r1 =>
    match r1.dropWhile isPySpace with
    | '[' :: r2 => takeUntilClose r2
    | _ => none

/-- `re.search(r"SOURCES:\s*\[(.*?)\]", l)` (main.py line 153): leftmost
match, returning the text before the match, the bracket content (group 1)
and the text after the match. -/
def searchSources : List Char → Option (List Char × List Char × List Char)
  | [] => none
  | c :: cs =>
    match matchSourcesHere (c :: cs) with
    | some (inner, rest) => some ([], inner, rest)
    | none =>
      match searchSources cs with
      | some (pre, inner, rest) => some (c :: pre, inner, rest)
      | none => none

/-- One attempted match of `\n*SOURCES:\s*\[.*?\]` anchored at the head:
the greedy `\n*` consumes every leading newline (backtracking cannot help
because the rest of the pattern starts with a non-newline character), then
the `SOURCES` pattern must match; on success return the remainder. -/
def matchSubHere (l : List Char) : Option (List Char) :=
  match matchSourcesHere (l.dropWhile (fun c => c = '\n')) with
  | some (_, rest) => some rest
  | none => none

/-- Fuelled scan of `re.sub(r"\n*SOURCES:\s*\[.*?\]", "", l)`: at each
position try the anchored match; on success drop the matched text and
continue after it, otherwise keep the character.  The fuel (an upper
bound on the length) makes the recursion structural; each successful
match consumes at least the `SOURCES:[` characters, so fuel `length l`
is always enough. -/
def subSourcesSubAux : Nat → List Char → List Char
  | _, [] => []
  | 0, l => l
  | fuel + 1, c :: cs =>
    match matchSubHere (c :: cs) with
    | some rest => subSourcesSubAux fuel rest
    | none => c :: subSourcesSubAux fuel cs

/-- `re.sub(r"\n*SOURCES:\s*\[.*?\]", "", l)` (main.py line 171). -/
def subSourcesSub (l : List Char) : List Char :=
  subSourcesSubAux l.length l

/-- The fixed empty-retrieval answer (main.py lines 89 and 150). -/
def noRelevantMsg : List Char := "No relevant articles found.".toList

/-- The sentinel token the prompt asks for (main.py lines 109 and 148). -/
def sentinelTok : List Char := "NO_DOCUMENTS_FOUND".toList

/-- Steps 5-6 of the endpoint (main.py lines 152-184): extract the
`SOURCES` ids from the (already stripped) answer, remove the citation
line from the visible answer, and project the referenced ids back onto
the retrieved passages; with no citation line, all retrieved ids are
used and the answer is returned as is. -/
def extractSources (contexts : List Passage) (answer_full : List Char) : QueryResponse :=
  match searchSources answer_full with
  | some (_, inner, _) =>
    let ids := parseSourceIds (stripChars inner)
    let answer := stripChars (subSourcesSub answer_full)
    ⟨answer, buildLinks contexts ids⟩
  | none =>
    ⟨answer_full, buildLinks contexts (contexts.map fun c => PId.num c.id)⟩

/-- Handling of the completion result (main.py lines 141-184): `None`
content is a 500, the stripped content is checked for the sentinel token
as a prefix, otherwise the sources are extracted. -/
def afterCompletion (contexts : List Passage) (content : Option (List Char)) :
    Except HErr QueryResponse :=
  match content with
  | none => .error (.http 500)
  | some raw =>
    let answer_full := stripChars raw
    if beginsWith sentinelTok answer_full then .ok ⟨noRelevantMsg, []⟩
    else .ok (extractSources contexts answer_full)

/-- The attribution-tagged prompt (main.py lines 104-113 and 133): each
passage prefixed with its id marker, then the question. -/
def buildPrompt (contexts : List Passage) (question : List Char) : List Char :=
  (contexts.map fun it =>
    "[Passage ".toList ++ Nat.toDigits 10 it.id ++ "]\n".toList ++ it.text).flatten
  ++ question

/-- The retrieval part of the endpoint (main.py lines 69-140): embed the
input text, search Qdrant, short-circuit on an empty result, otherwise
build the prompt, call the completion provider and post-process.  The
first component records the provider calls made, in order; `calls0`
carries the calls already made by the image pass. -/
def queryMain (env : Env) (req : QueryRequest) (input_text : List Char)
    (calls0 : List PCall) : List PCall × Except HErr QueryResponse :=
  let v := env.embedVec input_text
  let hits := env.searchHits v
  let calls := calls0 ++ [PCall.embeddingCall, PCall.searchCall]
  if hits.isEmpty then (calls, .ok ⟨noRelevantMsg, []⟩)
  else
    let prompt := buildPrompt hits req.question
    (calls ++ [PCall.chatCompletion], afterCompletion hits (env.completionContent prompt))

/-- The `/query` endpoint (main.py lines 34-184).  With an image, the
handler first calls `get_image_mime_type` (line 41) — whose uncaught
decode failure escapes as an unhandled exception — then re-decodes the
image inside `try` (lines 43-47), turning a failure there into an
HTTP 400; a valid image is described by a completion call and the
description is prepended to the question. -/
def queryHandler (env : Env) (req : QueryRequest) :
    List PCall × Except HErr QueryResponse :=
  match req.image with
  | some img =>
    match get_image_mime_type img with
    | .error _ => ([], .error .unhandled)
    | .ok _ =>
      match b64decode img with
      | .error _ => ([], .error (.http 400))
      | .ok _ =>
        let desc := env.describeImage img
        queryMain env req (desc ++ ' ' :: req.question) [PCall.chatCompletion]
  | none => queryMain env req req.question []

/-! ## Incremental crawl controller — `src/app/scrape_discourse.py`

The model keeps the fields of a post entry the claims depend on (`id`,
`topic_id`, `created_at`); timestamps are totally ordered integers
(`datetime.fromisoformat` comparisons).  The remote side (search result
pages, topic post streams, per-post details) is an oracle `World`, and
the run records the ids passed to `fetch_post_details` as its fetch
trace. -/

/-- A stored post entry with the fields relevant to checkpointing and
windowing (`build_post_entry` keeps `id`, `topic_id`, `created_at` among
others). -/
structure RawPost where
  id : Nat
  topic_id : Nat
  created_at : Int
deriving DecidableEq

/-- A search-result post as consumed by the pagination loop
(`scrape_discourse` lines 279-293 uses its `created_at` and `topic_id`). -/
structure SearchPost where
  topic_id : Nat
  created_at : Int
deriving DecidableEq

/-- The remote forum: the successive search-result pages (an empty or
missing page ends pagination), the post-id stream of each topic
(`fetch_topic_posts`), and the details of each post
(`fetch_post_details`). -/
structure World where
  pages : List (List SearchPost)
  stream : Nat → List Nat
  details : Nat → RawPost

/-- The line-delimited loading loop of `load_existing_posts`
(lines 44-64): a line's post is kept when its id is truthy (non-zero)
and not already recorded; `seen` holds the ids recorded so far. -/
def loadLd (seen : List Nat) (acc : List RawPost) : List RawPost → List RawPost
  | [] => acc
  | p :: ps =>
    if p.id ≠ 0 ∧ p.id ∉ seen then loadLd (p.id :: seen) (acc ++ [p]) ps
    else loadLd seen acc ps

/-- `load_existing_posts` (lines 28-65): all posts of the consolidated
snapshot file, then the line-delimited entries whose ids are new. -/
def load_existing_posts (full ld : List RawPost) : List RawPost :=
  loadLd (full.map RawPost.id) full ld

/-- State threaded through the crawl: the collected posts (`all_posts`)
and the trace of post ids passed to `fetch_post_details`. -/
structure CrawlState where
  all_posts : List RawPost
  fetched : List Nat
deriving DecidableEq

/-- `process_topic_posts` (lines 199-216): for each post id of the topic
stream, skip it without any network call when it is in `existing`
(the ids already collected for this topic); otherwise fetch its details
and keep the post exactly when its timestamp lies in the inclusive
window. -/
def process_topic_posts (w : World) (startD endD : Int) (existing : List Nat) :
    List Nat → CrawlState → CrawlState
  | [], st => st
  | pid :: rest, st =>
    if pid ∈ existing then process_topic_posts w startD endD existing rest st
    else
      let p := w.details pid
      let st' : CrawlState := ⟨st.all_posts, st.fetched ++ [pid]⟩
      if p.created_at < startD ∨ endD < p.created_at then
        process_topic_posts w startD endD existing rest st'
      else
        process_topic_posts w startD endD existing rest
          ⟨st'.all_posts ++ [p], st'.fetched⟩

/-- The per-page loop over search-result posts (lines 279-293): a post
older than `startD` stops the whole crawl (first component `true`); a
post inside the window has its topic stream fetched and processed, with
`existing` recomputed from the posts already collected for that topic;
a post newer than `endD` is skipped. -/
def processSearchPosts (w : World) (startD endD : Int) :
    List SearchPost → CrawlState → Bool × CrawlState
  | [], st => (false, st)
  | sp :: rest, st =>
    if sp.created_at < startD then (true, st)
    else if sp.created_at ≤ endD then
      let existing := (st.all_posts.filter fun p => p.topic_id == sp.topic_id).map RawPost.id
      let st' := process_topic_posts w startD endD existing (w.stream sp.topic_id) st
      processSearchPosts w startD endD rest st'
    else processSearchPosts w startD endD rest st

/-- Result of a crawl run: the consolidated snapshot written by
`save_posts` at termination, and the fetch trace. -/
structure RunResult where
  saved : List RawPost
  fetched : List Nat
deriving DecidableEq

/-- The pagination loop (lines 247-299): an exhausted or empty page ends
pagination with a final consolidated save; an early stop inside a page
saves immediately and returns. -/
def scrapePages (w : World) (startD endD : Int) :
    List (List SearchPost) → CrawlState → RunResult
  | [], st => ⟨st.all_posts, st.fetched⟩
  | pg :: rest, st =>
    if pg.isEmpty then ⟨st.all_posts, st.fetched⟩
    else
      match processSearchPosts w startD endD pg st with
      | (true, st') => ⟨st'.all_posts, st'.fetched⟩
      | (false, st') => scrapePages w startD endD rest st'

/-- `scrape_discourse(start_date, end_date)` (lines 219-299): load the
merged checkpoint, then run the pagination loop from page one. -/
def scrape_discourse (w : World) (full ld : List RawPost) (startD endD : Int) : RunResult :=
  scrapePages w startD endD w.pages ⟨load_existing_posts full ld, []⟩

/-! ## Auxiliary notions used by the statements and proofs -/

/-- A string that ends with one of the sentence terminators — the shape
of every regex sentence and of every non-empty chunk buffer. -/
def EndsTerm (l : List Char) : Prop :=
  ∃ a c, l = a ++ [c] ∧ isTermChar c = true

/-- The chunk-overlap relation along the output of `chunk_text`: each
chunk after the first extends `expectedSeed` of its predecessor. -/
inductive Chained (ov : Nat) : List (List Char) → Prop
  | nil : Chained ov []
  | single (a : List Char) : Chained ov [a]
  | cons (a b : List Char) (L : List (List Char))
      (hab : ∃ ext, b = expectedSeed ov a ++ ext)
      (h : Chained ov (b :: L)) : Chained ov (a :: b :: L)

/-- The citation line `SOURCES: [inner]` as a character list. -/
def citeLine (inner : List Char) : List Char :=
  sourcesLit ++ ' ' :: '[' :: (inner ++ [']'])

/-- Remove the trailing run of newline characters (the effect of the
greedy `\n*` of the substitution pattern on the text before the match). -/
def dropTrailNl (l : List Char) : List Char :=
  (l.reverse.dropWhile (fun c => c = '\n')).reverse

/-- Timestamp window test of the crawl (inclusive on both ends). -/
def inWindow (startD endD : Int) (p : RawPost) : Bool :=
  decide (startD ≤ p.created_at) && decide (p.created_at ≤ endD)

/-! ## General list lemmas -/

theorem dropWhile_append_of_all {α : Type} (p : α → Bool) {u : List α} (v : List α)
    (h : ∀ x ∈ u, p x = true) : (u ++ v).dropWhile p = v.dropWhile p := by
  induction u with
  | nil => rfl
  | cons c cs ih =>
    have hc := h c (List.mem_cons_self c cs)
    simp only [List.cons_append, List.dropWhile_cons, hc, if_true]
    exact ih fun x hx => h x (List.mem_cons_of_mem c hx)

theorem dropWhile_append_of_ne {α : Type} (p : α → Bool) {u : List α} (v : List α)
    (h : u.dropWhile p ≠ []) : (u ++ v).dropWhile p = u.dropWhile p ++ v := by
  induction u with
  | nil => simp [List.dropWhile] at h
  | cons c cs ih =>
    by_cases hc : p c
    · simp only [List.dropWhile_cons, hc, if_true] at h ⊢
      simp only [List.cons_append, List.dropWhile_cons, hc, if_true]
      exact ih h
    · simp only [List.cons_append, List.dropWhile_cons, hc]
      simp

theorem dropWhile_cons_head_not {α : Type} (p : α → Bool) {l : List α} {c : α} {t : List α}
    (h : l.dropWhile p = c :: t) : p c = false := by
  induction l with
  | nil => simp [List.dropWhile] at h
  | cons a as ih =>
    by_cases ha : p a
    · simp only [List.dropWhile_cons, ha, if_true] at h
      exact ih h
    · simp only [List.dropWhile_cons, ha, if_false] at h
      cases h
      simpa using ha

theorem mem_dropWhile_of_not {α : Type} (p : α → Bool) {l : List α} {a : α}
    (hmem : a ∈ l) (ha : p a = false) : a ∈ l.dropWhile p := by
  have hsplit : l.takeWhile p ++ l.dropWhile p = l := List.takeWhile_append_dropWhile p l
  rw [← hsplit] at hmem
  rcases List.mem_append.1 hmem with h | h
  · exact absurd (List.mem_takeWhile_imp h) (by simp [ha])
  · exact h

/-! ## Whitespace stripping lemmas -/

theorem rstrip_of_last_not_ws {a : List Char} {c : Char} (hc : isPySpace c = false) :
    rstripChars (a ++ [c]) = a ++ [c] := by
  simp [rstripChars, List.dropWhile_cons, hc]

theorem rstrip_eq_nil_of_all_ws {l : List Char} (h : ∀ x ∈ l, isPySpace x = true) :
    rstripChars l = [] := by
  have : l.reverse.dropWhile isPySpace = [] :=
    List.dropWhile_eq_nil_iff.2 fun x hx => h x (List.mem_reverse.1 hx)
  simp [rstripChars, this]

theorem rstrip_append_of_ne {a b : List Char} (h : rstripChars b ≠ []) :
    rstripChars (a ++ b) = a ++ rstripChars b := by
  have hb : b.reverse.dropWhile isPySpace ≠ [] := by
    intro hnil; exact h (by simp [rstripChars, hnil])
  simp only [rstripChars, List.reverse_append]
  rw [dropWhile_append_of_ne _ _ hb]
  simp

theorem rstrip_append_of_all_ws {a w : List Char} (h : ∀ x ∈ w, isPySpace x = true) :
    rstripChars (a ++ w) = rstripChars a := by
  simp only [rstripChars, List.reverse_append]
  rw [dropWhile_append_of_all _ _ fun x hx => h x (List.mem_reverse.1 hx)]

theorem lstrip_append_of_all_ws {w b : List Char} (h : ∀ x ∈ w, isPySpace x = true) :
    lstripChars (w ++ b) = lstripChars b :=
  dropWhile_append_of_all _ _ h

theorem lstrip_append_of_ne {a b : List Char} (h : lstripChars a ≠ []) :
    lstripChars (a ++ b) = lstripChars a ++ b :=
  dropWhile_append_of_ne _ _ h

theorem lstrip_idem (l : List Char) : lstripChars (lstripChars l) = lstripChars l := by
  unfold lstripChars
  cases hd : l.dropWhile isPySpace with
  | nil => rfl
  | cons c t =>
    have := dropWhile_cons_head_not isPySpace hd
    simp [List.dropWhile_cons, this]

theorem all_ws_of_rstrip_eq_nil {l : List Char} (h : rstripChars l = []) :
    ∀ x ∈ l, isPySpace x = true := by
  intro x hx
  have : l.reverse.dropWhile isPySpace = [] := by
    have := congrArg List.reverse h
    simpa [rstripChars] using this
  exact List.dropWhile_eq_nil_iff.1 this x (List.mem_reverse.2 hx)

theorem strip_append_right_ws {x w : List Char} (h : ∀ c ∈ w, isPySpace c = true) :
    stripChars (x ++ w) = stripChars x := by
  simp [stripChars, rstrip_append_of_all_ws h]

theorem strip_append_left_ws {w x : List Char} (h : ∀ c ∈ w, isPySpace c = true) :
    stripChars (w ++ x) = stripChars x := by
  by_cases hx : rstripChars x = []
  · have hxall := all_ws_of_rstrip_eq_nil hx
    have hall : ∀ c ∈ w ++ x, isPySpace c = true := by
      intro c hc
      rcases List.mem_append.1 hc with hc | hc
      · exact h c hc
      · exact hxall c hc
    simp [stripChars, rstrip_eq_nil_of_all_ws hall, hx, lstripChars]
  · rw [stripChars, rstrip_append_of_ne hx, lstrip_append_of_all_ws h, stripChars]

theorem strip_lstrip (x : List Char) : stripChars (lstripChars x) = stripChars x := by
  conv_rhs => rw [← List.takeWhile_append_dropWhile (p := isPySpace) (l := x)]
  rw [strip_append_left_ws fun c hc => List.mem_takeWhile_imp hc]
  rfl

theorem mem_strip_of_not_ws {l : List Char} {a : Char} (hmem : a ∈ l)
    (ha : isPySpace a = false) : a ∈ stripChars l := by
  have h1 : a ∈ rstripChars l := by
    have : a ∈ l.reverse.dropWhile isPySpace :=
      mem_dropWhile_of_not _ (List.mem_reverse.2 hmem) ha
    exact List.mem_reverse.2 this
  exact mem_dropWhile_of_not _ h1 ha

theorem rstrip_last_not_ws {l : List Char} (h : rstripChars l ≠ []) :
    ∃ a c, rstripChars l = a ++ [c] ∧ isPySpace c = false := by
  have hd : l.reverse.dropWhile isPySpace ≠ [] := by
    intro hnil; exact h (by simp [rstripChars, hnil])
  cases hcase : l.reverse.dropWhile isPySpace with
  | nil => exact absurd hcase hd
  | cons c t =>
    refine ⟨t.reverse, c, ?_, dropWhile_cons_head_not isPySpace hcase⟩
    simp [rstripChars, hcase]

theorem strip_idem (l : List Char) : stripChars (stripChars l) = stripChars l := by
  by_cases h : rstripChars l = []
  · simp [stripChars, h, lstripChars, rstrip_eq_nil_of_all_ws]
  · rcases rstrip_last_not_ws h with ⟨a, c, hac, hc⟩
    have hy : stripChars l = lstripChars (a ++ [c]) := by rw [stripChars, hac]
    have hyend : ∃ a', stripChars l = a' ++ [c] := by
      rw [hy]
      unfold lstripChars
      by_cases hda : a.dropWhile isPySpace = []
      · refine ⟨[], ?_⟩
        rw [dropWhile_append_of_all _ _ (List.dropWhile_eq_nil_iff.1 hda)]
        simp [List.dropWhile_cons, hc]
      · exact ⟨a.dropWhile isPySpace, by rw [dropWhile_append_of_ne _ _ hda]⟩
    rcases hyend with ⟨a', ha'⟩
    calc stripChars (stripChars l)
        = lstripChars (rstripChars (stripChars l)) := rfl
      _ = lstripChars (stripChars l) := by rw [ha', rstrip_of_last_not_ws hc, ← ha']
      _ = stripChars l := by rw [hy, lstrip_idem, ← hy]

/-! ## Chunker lemmas -/

theorem term_not_ws {c : Char} (h : isTermChar c = true) : isPySpace c = false := by
  simp only [isTermChar, Bool.or_eq_true, decide_eq_true_eq] at h
  rcases h with (h | h) | h <;> subst h <;> rfl

theorem splitSentencesAux_endsTerm (l : List Char) :
    ∀ acc s, s ∈ splitSentencesAux acc l → EndsTerm s := by
  induction l with
  | nil => intro acc s hs; simp [splitSentencesAux] at hs
  | cons c cs ih =>
    intro acc s hs
    by_cases hc : isTermChar c
    · simp only [splitSentencesAux, hc, if_true, List.mem_cons] at hs
      rcases hs with hs | hs
      · exact ⟨acc, c, hs, hc⟩
      · exact ih [] s hs
    · simp only [splitSentencesAux, hc, if_false] at hs
      exact ih (acc ++ [c]) s hs

theorem splitSentencesAux_flatten (l : List Char) :
    ∀ acc, (splitSentencesAux acc l).flatten ++ sentenceRestAux acc l = acc ++ l := by
  induction l with
  | nil => intro acc; simp [splitSentencesAux, sentenceRestAux]
  | cons c cs ih =>
    intro acc
    cases hc : isTermChar c
    · simp only [splitSentencesAux, sentenceRestAux, hc, Bool.false_eq_true, if_false]
      rw [ih (acc ++ [c])]
      simp
    · simp only [splitSentencesAux, sentenceRestAux, hc, if_true, List.flatten_cons,
        List.append_assoc]
      rw [ih []]
      simp

theorem sentenceRestAux_no_term (l : List Char) :
    ∀ acc, (∀ c ∈ acc, isTermChar c = false) →
      ∀ c ∈ sentenceRestAux acc l, isTermChar c = false := by
  induction l with
  | nil => intro acc hacc; simpa [sentenceRestAux] using hacc
  | cons c cs ih =>
    intro acc hacc
    by_cases hc : isTermChar c
    · simp only [sentenceRestAux, hc, if_true]
      exact ih [] (by simp)
    · simp only [sentenceRestAux, hc, if_false]
      refine ih (acc ++ [c]) ?_
      intro x hx
      rcases List.mem_append.1 hx with hx | hx
      · exact hacc x hx
      · simp only [List.mem_singleton] at hx
        subst hx
        simpa using hc

theorem endsTerm_ne_nil {l : List Char} (h : EndsTerm l) : l ≠ [] := by
  rcases h with ⟨a, c, rfl, _⟩
  simp

theorem endsTerm_append_left (x : List Char) {s : List Char} (h : EndsTerm s) :
    EndsTerm (x ++ s) := by
  rcases h with ⟨a, c, rfl, hc⟩
  exact ⟨x ++ a, c, by simp, hc⟩

theorem endsTerm_rstrip {l : List Char} (h : EndsTerm l) : rstripChars l = l := by
  rcases h with ⟨a, c, rfl, hc⟩
  exact rstrip_of_last_not_ws (term_not_ws hc)

theorem endsTerm_strip {l : List Char} (h : EndsTerm l) : stripChars l = lstripChars l := by
  rw [stripChars, endsTerm_rstrip h]

theorem endsTerm_lstrip_ne {l : List Char} (h : EndsTerm l) : lstripChars l ≠ [] := by
  rcases h with ⟨a, c, rfl, hc⟩
  intro hnil
  have := List.dropWhile_eq_nil_iff.1 hnil c (by simp)
  rw [term_not_ws hc] at this
  exact Bool.false_ne_true this

theorem endsTerm_overlapSlice {ov : Nat} {cur : List Char} (h : EndsTerm cur) :
    EndsTerm (overlapSlice ov cur) := by
  rcases h with ⟨a, c, rfl, hc⟩
  unfold overlapSlice pyTailSlice takeLast
  split
  · split
    · exact ⟨a, c, rfl, hc⟩
    · rename_i h1 h0
      have hlen : (a ++ [c]).length - ov ≤ a.length := by
        simp only [List.length_append, List.length_singleton]
        omega
      rw [List.drop_append_of_le_length hlen]
      exact ⟨a.drop ((a ++ [c]).length - ov), c, rfl, hc⟩
  · exact ⟨a, c, rfl, hc⟩

theorem chunkLoop_coverage (size ov : Nat) (sents : List (List Char)) :
    ∀ cur ch, (ch ∈ cur ∨ ch ∈ sents.flatten) → isPySpace ch = false →
      ∃ k, k ∈ chunkLoop size ov sents cur ∧ ch ∈ k := by
  induction sents with
  | nil =>
    intro cur ch hmem hws
    rcases hmem with hmem | hmem
    · have hne : cur.isEmpty = false := by
        cases cur with
        | nil => simp at hmem
        | cons a t => rfl
      refine ⟨stripChars cur, ?_, mem_strip_of_not_ws hmem hws⟩
      simp [chunkLoop, hne]
    · simp at hmem
  | cons s rest ih =>
    intro cur ch hmem hws
    simp only [List.flatten_cons, List.mem_append] at hmem
    by_cases hcond : (cur.length + s.length ≤ size || cur.isEmpty) = true
    · simp only [chunkLoop, hcond, if_true]
      refine ih (cur ++ s) ch ?_ hws
      rcases hmem with hmem | hmem | hmem
      · exact Or.inl (List.mem_append.2 (Or.inl hmem))
      · exact Or.inl (List.mem_append.2 (Or.inr hmem))
      · exact Or.inr hmem
    · simp only [chunkLoop, hcond, if_false]
      rcases hmem with hmem | hmem | hmem
      · exact ⟨stripChars cur, List.mem_cons_self _ _, mem_strip_of_not_ws hmem hws⟩
      · rcases ih (overlapSlice ov cur ++ s) ch
            (Or.inl (List.mem_append.2 (Or.inr hmem))) hws with ⟨k, hk, hck⟩
        exact ⟨k, List.mem_cons_of_mem _ hk, hck⟩
      · rcases ih (overlapSlice ov cur ++ s) ch (Or.inr hmem) hws with ⟨k, hk, hck⟩
        exact ⟨k, List.mem_cons_of_mem _ hk, hck⟩

theorem chunkLoop_mem_stripped (size ov : Nat) (sents : List (List Char)) :
    ∀ cur k, k ∈ chunkLoop size ov sents cur → ∃ b, k = stripChars b := by
  induction sents with
  | nil =>
    intro cur k hk
    cases hcur : cur.isEmpty
    · simp only [chunkLoop, hcur, Bool.false_eq_true, if_false, List.mem_singleton] at hk
      exact ⟨cur, hk⟩
    · simp [chunkLoop, hcur] at hk
  | cons s rest ih =>
    intro cur k hk
    cases hcond : (cur.length + s.length ≤ size || cur.isEmpty)
    · rw [chunkLoop, hcond] at hk
      simp only [Bool.false_eq_true, if_false, List.mem_cons] at hk
      rcases hk with hk | hk
      · exact ⟨cur, hk⟩
      · exact ih _ k hk
    · rw [chunkLoop, hcond] at hk
      simp only [if_true] at hk
      exact ih _ k hk

theorem lstrip_length_le (l : List Char) : (lstripChars l).length ≤ l.length := by
  induction l with
  | nil => simp [lstripChars]
  | cons c t ih =>
    by_cases hc : isPySpace c
    · simp only [lstripChars, List.dropWhile_cons, hc, if_true] at ih ⊢
      exact Nat.le_succ_of_le ih
    · simp [lstripChars, List.dropWhile_cons, hc]

theorem drop_append_ge {α : Type} (u v : List α) (m : Nat) :
    (u ++ v).drop (u.length + m) = v.drop m := by
  rw [← List.drop_drop, List.drop_left]

theorem seed_eq (ov : Nat) {cur : List Char} (h : EndsTerm cur) :
    lstripChars (overlapSlice ov cur) = expectedSeed ov (lstripChars cur) := by
  have hws : ∀ x ∈ cur.takeWhile isPySpace, isPySpace x = true :=
    fun x hx => List.mem_takeWhile_imp hx
  have hsplit : cur.takeWhile isPySpace ++ lstripChars cur = cur :=
    List.takeWhile_append_dropWhile isPySpace cur
  have hLne : lstripChars cur ≠ [] := endsTerm_lstrip_ne h
  by_cases h0 : ov = 0
  · subst h0
    have hslice : overlapSlice 0 cur = cur := by
      unfold overlapSlice pyTailSlice
      split
      · rfl
      · rfl
    rw [hslice, expectedSeed, if_pos (Or.inl rfl)]
  · by_cases hlt : ov < cur.length
    · have hslice : overlapSlice ov cur = cur.drop (cur.length - ov) := by
        unfold overlapSlice pyTailSlice takeLast
        rw [if_pos hlt, if_neg h0]
      have hlen2 : cur.length = (cur.takeWhile isPySpace).length + (lstripChars cur).length := by
        conv_lhs => rw [← hsplit]
        simp
      by_cases hle : (lstripChars cur).length ≤ ov
      · -- the slice reaches into the leading whitespace: only whitespace is cut away
        rw [expectedSeed, if_pos (Or.inr hle), hslice]
        have hlen : cur.length - ov ≤ (cur.takeWhile isPySpace).length := by omega
        calc lstripChars (cur.drop (cur.length - ov))
            = lstripChars ((cur.takeWhile isPySpace ++ lstripChars cur).drop
                (cur.length - ov)) := by rw [hsplit]
          _ = lstripChars ((cur.takeWhile isPySpace).drop (cur.length - ov)
                ++ lstripChars cur) := by rw [List.drop_append_of_le_length hlen]
          _ = lstripChars (lstripChars cur) :=
                lstrip_append_of_all_ws fun x hx => hws x (List.mem_of_mem_drop hx)
          _ = lstripChars cur := lstrip_idem cur
      · -- the slice stays inside the stripped part
        push_neg at hle
        rw [expectedSeed, if_neg (by push_neg; exact ⟨h0, by omega⟩), hslice]
        have hdrop : cur.drop (cur.length - ov) =
            (lstripChars cur).drop ((lstripChars cur).length - ov) := by
          calc cur.drop (cur.length - ov)
              = (cur.takeWhile isPySpace ++ lstripChars cur).drop (cur.length - ov) := by
                rw [hsplit]
            _ = (cur.takeWhile isPySpace ++ lstripChars cur).drop
                  ((cur.takeWhile isPySpace).length + ((lstripChars cur).length - ov)) := by
                have heq : cur.length - ov =
                    (cur.takeWhile isPySpace).length + ((lstripChars cur).length - ov) := by
                  omega
                rw [heq]
            _ = (lstripChars cur).drop ((lstripChars cur).length - ov) :=
                drop_append_ge _ _ _
        rw [hdrop]
        rfl
    · have hslice : overlapSlice ov cur = cur := by
        unfold overlapSlice
        rw [if_neg hlt]
      have hle : (lstripChars cur).length ≤ ov := by
        have := lstrip_length_le cur
        omega
      rw [hslice, expectedSeed, if_pos (Or.inr hle)]

theorem chunkLoop_chained (size ov : Nat) (sents : List (List Char)) :
    ∀ cur, (∀ s ∈ sents, EndsTerm s) → EndsTerm cur →
      (∃ ext, (chunkLoop size ov sents cur).head? = some (lstripChars cur ++ ext))
      ∧ Chained ov (chunkLoop size ov sents cur) := by
  induction sents with
  | nil =>
    intro cur _ hcur
    have hne : cur.isEmpty = false := by
      cases cur with
      | nil => exact absurd rfl (endsTerm_ne_nil hcur)
      | cons a t => rfl
    rw [chunkLoop, hne]
    simp only [Bool.false_eq_true, if_false]
    exact ⟨⟨[], by rw [endsTerm_strip hcur]; simp⟩, Chained.single _⟩
  | cons s rest ih =>
    intro cur hsents hcur
    have hs : EndsTerm s := hsents s (List.mem_cons_self s rest)
    have hrest : ∀ x ∈ rest, EndsTerm x := fun x hx => hsents x (List.mem_cons_of_mem s hx)
    cases hcond : (cur.length + s.length ≤ size || cur.isEmpty)
    · -- rollover: emit the stripped buffer, seed the next one
      rw [chunkLoop, hcond]
      simp only [Bool.false_eq_true, if_false]
      have hovl : EndsTerm (overlapSlice ov cur) := endsTerm_overlapSlice hcur
      have hcur' : EndsTerm (overlapSlice ov cur ++ s) := endsTerm_append_left _ hs
      rcases ih (overlapSlice ov cur ++ s) hrest hcur' with ⟨⟨ext, hhead⟩, hch⟩
      cases hL : chunkLoop size ov rest (overlapSlice ov cur ++ s) with
      | nil => rw [hL] at hhead; simp at hhead
      | cons b L =>
        rw [hL] at hhead hch
        simp only [List.head?_cons, Option.some.injEq] at hhead
        refine ⟨⟨[], by rw [endsTerm_strip hcur]; simp⟩, ?_⟩
        refine Chained.cons _ _ _ ⟨s ++ ext, ?_⟩ hch
        rw [hhead, lstrip_append_of_ne (endsTerm_lstrip_ne hovl),
          endsTerm_strip hcur, seed_eq ov hcur]
        simp
    · -- the sentence still fits (or the buffer is empty): keep accumulating
      rw [chunkLoop, hcond]
      simp only [if_true]
      have hcur' : EndsTerm (cur ++ s) := endsTerm_append_left _ hs
      rcases ih (cur ++ s) hrest hcur' with ⟨⟨ext, hhead⟩, hch⟩
      refine ⟨⟨s ++ ext, ?_⟩, hch⟩
      rw [hhead, lstrip_append_of_ne (endsTerm_lstrip_ne hcur)]
      simp

theorem chained_get {ov : Nat} : ∀ {L : List (List Char)}, Chained ov L →
    ∀ i (hi : i + 1 < L.length),
      ∃ ext, L.get ⟨i + 1, hi⟩ =
        expectedSeed ov (L.get ⟨i, Nat.lt_of_succ_lt hi⟩) ++ ext := by
  intro L h
  induction h with
  | nil => intro i hi; simp at hi
  | single a => intro i hi; simp at hi
  | cons a b L hab _ ih =>
    intro i hi
    match i with
    | 0 => exact hab
    | j + 1 =>
      have hj : j + 1 < (b :: L).length := by
        simpa using Nat.lt_of_succ_lt_succ hi
      exact ih j hj

/-! ## Claim C1 -/

/-- C1 is false as stated: on the input `"abc"`, which has no terminal
punctuation, `chunk_text` returns no chunks at all, so the character `'a'`
of the input appears in no chunk — trailing content without a terminator
is dropped by the sentence regex, not kept as its own final sentence. -/
theorem c1_counterexample :
    chunk_text "abc".toList 500 300 = [] ∧ 'a' ∈ "abc".toList := by
  constructor
  · rfl
  · decide

/-- C1 amended: the sentence decomposition covers exactly the input up to
and including its last terminal punctuation character (the remainder
contains no terminator and is dropped), and every non-whitespace
character of that covered part appears in at least one chunk returned by
`chunk_text`, for every `max_size` and `overlap_size`. -/
theorem c1_amended_coverage (t : List Char) (size ov : Nat) :
    ((splitSentences t).flatten ++ sentenceRest t = t)
    ∧ (∀ c ∈ sentenceRest t, isTermChar c = false)
    ∧ (∀ ch, ch ∈ (splitSentences t).flatten → isPySpace ch = false →
        ∃ k, k ∈ chunk_text t size ov ∧ ch ∈ k) := by
  refine ⟨?_, ?_, ?_⟩
  · simpa using splitSentencesAux_flatten t []
  · exact sentenceRestAux_no_term t [] (by simp)
  · intro ch hch hws
    exact chunkLoop_coverage size ov (splitSentences t) [] ch (Or.inr hch) hws

/-- Witness for C1 amended at a concrete input. -/
theorem c1_amended_coverage_witness :
    ((splitSentences "A. B!".toList).flatten ++ sentenceRest "A. B!".toList = "A. B!".toList)
    ∧ (∃ k, k ∈ chunk_text "A. B!".toList 500 300 ∧ 'B' ∈ k) :=
  ⟨(c1_amended_coverage "A. B!".toList 500 300).1,
   (c1_amended_coverage "A. B!".toList 500 300).2.2 'B' (by decide) (by decide)⟩

/-! ## Claim C10 -/

/-- C10: every chunk returned by `chunk_text` is a fixed point of
`stripChars`, i.e. carries no leading or trailing whitespace — both
emission sites apply `.strip()`. -/
theorem c10_chunks_stripped (t : List Char) (size ov : Nat) (k : List Char)
    (hk : k ∈ chunk_text t size ov) : stripChars k = k := by
  rcases chunkLoop_mem_stripped size ov (splitSentences t) [] k hk with ⟨b, rfl⟩
  exact strip_idem b

/-- Witness for C10 at a concrete input. -/
theorem c10_chunks_stripped_witness :
    stripChars "A. B.".toList = "A. B.".toList :=
  c10_chunks_stripped "A. B. C.".toList 4 2 "A. B.".toList (by decide)

/-! ## Claim C4 -/

/-- C4 is false as stated: `chunk_text "ab c. d." 5 3` yields the chunks
`"ab c."` and `"c. d."`; the last 3 characters of the first chunk are
`" c."` but the second chunk begins with `"c. "` — the overlap seed is
cut from the unstripped buffer and then loses its leading space when the
next chunk is stripped at emission. -/
theorem c4_counterexample :
    chunk_text "ab c. d.".toList 5 3 = ["ab c.".toList, "c. d.".toList]
    ∧ 3 ≤ "c. d.".toList.length
    ∧ "c. d.".toList.take 3 ≠ takeLast 3 "ab c.".toList := by
  refine ⟨rfl, by decide, by decide⟩

/-- C4 amended: every chunk after the first begins with the last
`overlap_size` characters of the previous chunk stripped of their leading
whitespace — or with the entire previous chunk when `overlap_size` is `0`
(Python `s[-0:]` is the whole string) or at least the previous chunk's
length (`expectedSeed`). -/
theorem c4_amended_overlap (t : List Char) (size ov i : Nat)
    (hi : i + 1 < (chunk_text t size ov).length) :
    ∃ ext, (chunk_text t size ov).get ⟨i + 1, hi⟩ =
      expectedSeed ov ((chunk_text t size ov).get ⟨i, Nat.lt_of_succ_lt hi⟩) ++ ext := by
  have hch : Chained ov (chunk_text t size ov) := by
    unfold chunk_text
    cases hsents : splitSentences t with
    | nil =>
      rw [chunkLoop]
      simp only [List.isEmpty_nil, if_true]
      exact Chained.nil
    | cons s rest =>
      have hcond : (List.length ([] : List Char) + s.length ≤ size
          || List.isEmpty ([] : List Char)) = true := by simp
      rw [chunkLoop, hcond]
      simp only [if_true, List.nil_append]
      have hs : EndsTerm s := by
        refine splitSentencesAux_endsTerm t [] s ?_
        rw [show splitSentencesAux [] t = splitSentences t from rfl, hsents]
        exact List.mem_cons_self _ _
      have hrest : ∀ x ∈ rest, EndsTerm x := by
        intro x hx
        refine splitSentencesAux_endsTerm t [] x ?_
        rw [show splitSentencesAux [] t = splitSentences t from rfl, hsents]
        exact List.mem_cons_of_mem _ hx
      exact (chunkLoop_chained size ov rest s hrest hs).2
  exact chained_get hch i hi

/-- Witness for C4 amended on the spec's own example
`chunk_text("A. B. C.", 4, 2) = ["A.", "A. B.", "B. C."]`. -/
theorem c4_amended_overlap_witness :
    ∃ ext, (chunk_text "A. B. C.".toList 4 2).get ⟨2, by decide⟩ =
      expectedSeed 2 ((chunk_text "A. B. C.".toList 4 2).get
        ⟨1, Nat.lt_of_succ_lt (by decide)⟩) ++ ext :=
  c4_amended_overlap "A. B. C.".toList 4 2 1 (by decide)

/-! ## Claim C3 -/

theorem assign_replicate : ∀ (n s : Nat),
    assignPointIds s (List.replicate n true) = List.range' s n := by
  intro n
  induction n with
  | zero => intro s; rfl
  | succ m ih =>
    intro s
    simp only [List.replicate_succ, assignPointIds, if_true, List.range'_succ]
    rw [ih (s + 1)]

theorem assign_mem_bounds : ∀ (bs : List Bool) (s i : Nat),
    i ∈ assignPointIds s bs → s ≤ i ∧ i < s + (assignPointIds s bs).length := by
  intro bs
  induction bs with
  | nil => intro s i hi; simp [assignPointIds] at hi
  | cons ok rest ih =>
    intro s i hi
    cases ok with
    | true =>
      simp only [assignPointIds, if_true, List.mem_cons] at hi
      rcases hi with rfl | hi
      · simp [assignPointIds]
      · have := ih (s + 1) i hi
        simp only [assignPointIds, if_true, List.length_cons]
        omega
    | false =>
      simp only [assignPointIds, Bool.false_eq_true, if_false] at hi ⊢
      exact ih s i hi

/-- C3 is false as stated: if the flat-text family produces 3001 chunks,
its counter (seeded at 0) reaches id 3000, which collides with the first
id of the forum family (seeded at 3000) — the fixed 3000 offset only
separates the families while the first stays below it. -/
theorem c3_counterexample :
    3000 ∈ assignPointIds 0 (List.replicate 3001 true)
    ∧ 3000 ∈ assignPointIds 3000 [true] := by
  constructor
  · rw [assign_replicate]
    exact List.mem_range'_1.2 ⟨Nat.zero_le _, by omega⟩
  · simp [assignPointIds]

/-- C3 amended: ids of the two families never collide provided the
flat-text family (seed 0) emits at most 3000 points, whatever the forum
family (seed 3000) emits. -/
theorem c3_amended_disjoint (bs1 bs2 : List Bool) (i : Nat)
    (hlen : (assignPointIds 0 bs1).length ≤ 3000)
    (hmem : i ∈ assignPointIds 0 bs1) : i ∉ assignPointIds 3000 bs2 := by
  intro hmem2
  have h1 := assign_mem_bounds bs1 0 i hmem
  have h2 := assign_mem_bounds bs2 3000 i hmem2
  omega

/-- Witness for C3 amended at a concrete run. -/
theorem c3_amended_disjoint_witness : 5 ∉ assignPointIds 3000 [true] :=
  c3_amended_disjoint (List.replicate 10 true) [true] 5 (by decide) (by decide)

/-! ## Claim C2 -/

/-- C2 is wrong about the code and the code is the bug: for the image
payload `"A"` (invalid base64 — one data character), the endpoint calls
`get_image_mime_type` (main.py line 41) before its own `try/except`, the
`base64.b64decode` inside `utils.py` raises `binascii.Error` uncaught,
and the request dies as an unhandled exception (HTTP 500), never reaching
the HTTP 400 branch of lines 43-47 — and before any provider call. -/
theorem c2_invalid_image_unhandled (env : Env) (q : List Char) :
    queryHandler env ⟨q, some "A".toList⟩ = ([], .error HErr.unhandled)
    ∧ HErr.unhandled ≠ HErr.http 400 :=
  ⟨rfl, by decide⟩

/-! ## Citation-line parsing lemmas -/

theorem expectSeq_self_append {α : Type} [DecidableEq α] (pat r : List α) :
    expectSeq pat (pat ++ r) = some r := by
  induction pat with
  | nil => rfl
  | cons p ps ih => simp [expectSeq, ih]

theorem expectSeq_none_append {pat : List Char} : ∀ {b : List Char} (rest : List Char),
    '\n' ∉ pat → expectSeq pat b = none →
    expectSeq pat (b ++ '\n' :: rest) = none := by
  induction pat with
  | nil => intro b rest _ h; simp [expectSeq] at h
  | cons p ps ih =>
    intro b rest hnl h
    cases b with
    | nil =>
      have hp : ¬('\n' = p) := fun he => hnl (he ▸ List.mem_cons_self p ps)
      simp [expectSeq, hp]
    | cons c cs =>
      by_cases hc : c = p
      · simp only [expectSeq, hc, if_true] at h
        simp only [List.cons_append, expectSeq, hc, if_true]
        exact ih rest (fun hm => hnl (List.mem_cons_of_mem p hm)) h
      · simp [List.cons_append, expectSeq, hc]

theorem expectSeq_eq_none_of_beginsWith_false {α : Type} [DecidableEq α]
    {pat l : List α} (h : beginsWith pat l = false) : expectSeq pat l = none := by
  unfold beginsWith at h
  cases he : expectSeq pat l with
  | none => rfl
  | some r => rw [he] at h; simp at h

theorem hasSub_cons_false {pat : List Char} {c : Char} {cs : List Char}
    (h : hasSub pat (c :: cs) = false) :
    beginsWith pat (c :: cs) = false ∧ hasSub pat cs = false := by
  have h' := h
  rw [hasSub] at h'
  exact ⟨by cases hb : beginsWith pat (c :: cs) <;> simp_all,
         by cases hb : hasSub pat cs <;> simp_all⟩

theorem hasSub_false_of_beginsWith {pat l : List Char}
    (h : hasSub pat l = false) : beginsWith pat l = false := by
  cases l with
  | nil => rw [hasSub] at h; exact h
  | cons c cs => exact (hasSub_cons_false h).1

theorem hasSub_dropWhile {pat : List Char} (q : Char → Bool) :
    ∀ {l : List Char}, hasSub pat l = false → hasSub pat (l.dropWhile q) = false := by
  intro l
  induction l with
  | nil => intro h; simpa using h
  | cons c cs ih =>
    intro h
    rcases hasSub_cons_false h with ⟨h1, h2⟩
    cases hc : q c
    · simpa [List.dropWhile_cons, hc] using h
    · simp only [List.dropWhile_cons, hc, if_true]
      exact ih h2

theorem takeUntilClose_complete : ∀ {inner : List Char} (rest : List Char),
    (∀ c ∈ inner, c ≠ ']' ∧ c ≠ '\n') →
    takeUntilClose (inner ++ ']' :: rest) = some (inner, rest) := by
  intro inner
  induction inner with
  | nil => intro rest _; simp [takeUntilClose]
  | cons c cs ih =>
    intro rest h
    have hc := h c (List.mem_cons_self c cs)
    have hrec := ih rest fun x hx => h x (List.mem_cons_of_mem c hx)
    simp only [List.cons_append, takeUntilClose, if_neg hc.1, if_neg hc.2, List.append_eq, hrec]

theorem matchSourcesHere_citeLine {inner : List Char} (tail : List Char)
    (h : ∀ c ∈ inner, c ≠ ']' ∧ c ≠ '\n') :
    matchSourcesHere (citeLine inner ++ tail) = some (inner, tail) := by
  have h1 : expectSeq sourcesLit (citeLine inner ++ tail)
      = some (' ' :: '[' :: (inner ++ [']']) ++ tail) := by
    rw [citeLine, List.append_assoc]
    exact expectSeq_self_append _ _
  rw [matchSourcesHere, h1]
  show (match (' ' :: '[' :: (inner ++ [']']) ++ tail).dropWhile isPySpace with
    | '[' :: r2 => takeUntilClose r2
    | _ => none) = some (inner, tail)
  have h2 : (' ' :: '[' :: (inner ++ [']']) ++ tail).dropWhile isPySpace
      = '[' :: ((inner ++ [']']) ++ tail) := by
    simp [List.dropWhile_cons, isPySpace]
  rw [h2]
  show takeUntilClose ((inner ++ [']']) ++ tail) = some (inner, tail)
  rw [List.append_assoc]
  exact takeUntilClose_complete tail h

theorem matchSourcesHere_none {l : List Char}
    (h : expectSeq sourcesLit l = none) : matchSourcesHere l = none := by
  rw [matchSourcesHere, h]

theorem searchSources_cons_of_match {c : Char} {cs i r : List Char}
    (hm : matchSourcesHere (c :: cs) = some (i, r)) :
    searchSources (c :: cs) = some ([], i, r) := by
  rw [searchSources, hm]

theorem searchSources_citeLine : ∀ {b : List Char}, hasSub sourcesLit b = false →
    ∀ {inner : List Char}, (∀ c ∈ inner, c ≠ ']' ∧ c ≠ '\n') →
    searchSources (b ++ '\n' :: citeLine inner) = some (b ++ ['\n'], inner, []) := by
  intro b
  induction b with
  | nil =>
    intro _ inner hin
    have hm1 : matchSourcesHere ('\n' :: citeLine inner) = none := by
      apply matchSourcesHere_none
      simp [sourcesLit, expectSeq]
    have hmc : matchSourcesHere (citeLine inner) = some (inner, []) := by
      simpa using matchSourcesHere_citeLine [] hin
    have hm2 : searchSources (citeLine inner) = some ([], inner, []) := by
      rw [show citeLine inner
          = 'S' :: ('O' :: 'U' :: 'R' :: 'C' :: 'E' :: 'S' :: ':' :: ' ' :: '['
            :: (inner ++ [']'])) from by simp [citeLine, sourcesLit]] at hmc ⊢
      exact searchSources_cons_of_match hmc
    rw [List.nil_append, searchSources, hm1, hm2]
    rfl
  | cons c b' ih =>
    intro hb inner hin
    rcases hasSub_cons_false hb with ⟨h1, h2⟩
    have hm : matchSourcesHere (c :: (b' ++ '\n' :: citeLine inner)) = none := by
      apply matchSourcesHere_none
      have : expectSeq sourcesLit (c :: b') = none :=
        expectSeq_eq_none_of_beginsWith_false h1
      have := expectSeq_none_append (b := c :: b') (citeLine inner) (by decide) this
      simpa using this
    rw [List.cons_append, searchSources, hm, ih h2 hin]
    rfl

/-! ## Substitution (`re.sub`) computation lemmas -/

theorem dropTrailNl_eq_nil_iff {l : List Char} :
    dropTrailNl l = [] ↔ ∀ x ∈ l, x = '\n' := by
  constructor
  · intro h x hx
    have : l.reverse.dropWhile (fun c => c = '\n') = [] := by
      have := congrArg List.reverse h
      simpa [dropTrailNl] using this
    have := List.dropWhile_eq_nil_iff.1 this x (List.mem_reverse.2 hx)
    simpa using this
  · intro h
    have : l.reverse.dropWhile (fun c => c = '\n') = [] :=
      List.dropWhile_eq_nil_iff.2 fun x hx => by
        simpa using h x (List.mem_reverse.1 hx)
    simp [dropTrailNl, this]

theorem dropTrailNl_cons_of_ne {t : List Char} (c : Char) (hdt : dropTrailNl t ≠ []) :
    dropTrailNl (c :: t) = c :: dropTrailNl t := by
  have h : t.reverse.dropWhile (fun x => x = '\n') ≠ [] := by
    intro hnil
    exact hdt (by simp [dropTrailNl, hnil])
  simp only [dropTrailNl, List.reverse_cons]
  rw [dropWhile_append_of_ne _ _ h]
  simp

theorem dropTrailNl_cons_of_head {t : List Char} {c : Char} (hc : ¬(c = '\n')) :
    dropTrailNl (c :: t) = c :: dropTrailNl t := by
  by_cases hdt : dropTrailNl t = []
  · have hall : ∀ x ∈ t.reverse, (decide (x = '\n')) = true := fun x hx => by
      simpa using dropTrailNl_eq_nil_iff.1 hdt x (List.mem_reverse.1 hx)
    have h1 : List.dropWhile (fun x => decide (x = '\n')) [c] = [c] := by
      simp [List.dropWhile_cons, hc]
    have h2 : List.dropWhile (fun x => decide (x = '\n')) t.reverse = [] :=
      List.dropWhile_eq_nil_iff.2 hall
    simp only [dropTrailNl, List.reverse_cons]
    rw [dropWhile_append_of_all _ _ hall, h1, h2]
    rfl
  · exact dropTrailNl_cons_of_ne c hdt

theorem matchSubHere_citeLine_all_nl {b inner : List Char}
    (hall : ∀ x ∈ b, x = '\n') (hin : ∀ c ∈ inner, c ≠ ']' ∧ c ≠ '\n') :
    matchSubHere (b ++ '\n' :: citeLine inner) = some [] := by
  rw [matchSubHere]
  have hd : (b ++ '\n' :: citeLine inner).dropWhile (fun c => c = '\n')
      = citeLine inner := by
    rw [dropWhile_append_of_all _ _ fun x hx => by simpa using hall x hx]
    rw [show citeLine inner
        = 'S' :: ('O' :: 'U' :: 'R' :: 'C' :: 'E' :: 'S' :: ':' :: ' ' :: '['
          :: (inner ++ [']'])) from by simp [citeLine, sourcesLit]]
    simp [List.dropWhile_cons]
  rw [hd, show matchSourcesHere (citeLine inner) = some (inner, []) from by
    simpa using matchSourcesHere_citeLine [] hin]

theorem subAux_nil (fuel : Nat) : subSourcesSubAux fuel [] = [] := by
  cases fuel <;> rfl

theorem subAux_citeLine : ∀ (b : List Char) (fuel : Nat) {inner : List Char},
    (b ++ '\n' :: citeLine inner).length ≤ fuel →
    hasSub sourcesLit b = false →
    (∀ c ∈ inner, c ≠ ']' ∧ c ≠ '\n') →
    subSourcesSubAux fuel (b ++ '\n' :: citeLine inner) = dropTrailNl b := by
  intro b
  induction b with
  | nil =>
    intro fuel inner hfuel _ hin
    match fuel with
    | 0 => simp at hfuel
    | fuel + 1 =>
      have hms := matchSubHere_citeLine_all_nl (b := []) (by simp) hin
      rw [List.nil_append] at hms ⊢
      rw [subSourcesSubAux, hms]
      show subSourcesSubAux fuel [] = dropTrailNl []
      rw [subAux_nil]
      rfl
  | cons c b' ih =>
    intro fuel inner hfuel hb hin
    rcases hasSub_cons_false hb with ⟨h1, h2⟩
    match fuel with
    | 0 => simp at hfuel
    | fuel + 1 =>
      have hfuel' : (b' ++ '\n' :: citeLine inner).length ≤ fuel := by
        simp only [List.cons_append, List.length_cons, List.length_append] at hfuel ⊢
        omega
      by_cases hc : c = '\n'
      · subst hc
        by_cases hall : ∀ x ∈ b', x = '\n'
        · -- everything before the citation line is newlines: the match fires here
          have hms : matchSubHere ('\n' :: (b' ++ '\n' :: citeLine inner)) = some [] := by
            have := matchSubHere_citeLine_all_nl (b := '\n' :: b')
              (fun x hx => by
                rcases List.mem_cons.1 hx with rfl | hx
                · rfl
                · exact hall x hx) hin
            simpa using this
          rw [List.cons_append, subSourcesSubAux, hms]
          rw [show dropTrailNl ('\n' :: b') = [] from dropTrailNl_eq_nil_iff.2
            (fun x hx => by
              rcases List.mem_cons.1 hx with rfl | hx
              · rfl
              · exact hall x hx)]
          show subSourcesSubAux fuel [] = []
          exact subAux_nil fuel
        · -- a non-newline character occurs before the line: no match here
          push_neg at hall
          rcases hall with ⟨y, hy, hyne⟩
          have hdwne : b'.dropWhile (fun x => x = '\n') ≠ [] := by
            intro hnil
            exact hyne (by simpa using List.dropWhile_eq_nil_iff.1 hnil y hy)
          have hms : matchSubHere ('\n' :: (b' ++ '\n' :: citeLine inner)) = none := by
            rw [matchSubHere]
            have hd : ('\n' :: (b' ++ '\n' :: citeLine inner)).dropWhile
                (fun c => c = '\n')
                = b'.dropWhile (fun x => x = '\n') ++ '\n' :: citeLine inner := by
              simp only [List.dropWhile_cons, decide_True, if_true]
              exact dropWhile_append_of_ne _ _ hdwne
            rw [hd]
            have hnone : matchSourcesHere
                (b'.dropWhile (fun x => x = '\n') ++ '\n' :: citeLine inner) = none := by
              apply matchSourcesHere_none
              have hsubb : hasSub sourcesLit (b'.dropWhile (fun x => x = '\n')) = false :=
                hasSub_dropWhile _ h2
              cases hcase : b'.dropWhile (fun x => x = '\n') with
              | nil => exact absurd hcase hdwne
              | cons z zs =>
                rw [hcase] at hsubb
                have := expectSeq_eq_none_of_beginsWith_false (hasSub_false_of_beginsWith hsubb)
                have := expectSeq_none_append (b := z :: zs) (citeLine inner) (by decide) this
                simpa [hcase] using this
            rw [hnone]
          rw [List.cons_append, subSourcesSubAux, hms, ih fuel hfuel' h2 hin]
          exact (dropTrailNl_cons_of_ne '\n'
            (fun hnil => hyne (dropTrailNl_eq_nil_iff.1 hnil y hy))).symm
      · -- the head character is not a newline: no match here either
        have hms : matchSubHere (c :: (b' ++ '\n' :: citeLine inner)) = none := by
          rw [matchSubHere]
          have hd : (c :: (b' ++ '\n' :: citeLine inner)).dropWhile (fun x => x = '\n')
              = c :: (b' ++ '\n' :: citeLine inner) := by
            simp [List.dropWhile_cons, hc]
          rw [hd]
          have hnone : matchSourcesHere (c :: (b' ++ '\n' :: citeLine inner)) = none := by
            apply matchSourcesHere_none
            have := expectSeq_eq_none_of_beginsWith_false h1
            have := expectSeq_none_append (b := c :: b') (citeLine inner) (by decide) this
            simpa using this
          rw [hnone]
        rw [List.cons_append, subSourcesSubAux, hms, ih fuel hfuel' h2 hin]
        exact (dropTrailNl_cons_of_head hc).symm

theorem subSources_citeLine {b inner : List Char}
    (hb : hasSub sourcesLit b = false)
    (hin : ∀ c ∈ inner, c ≠ ']' ∧ c ≠ '\n') :
    subSourcesSub (b ++ '\n' :: citeLine inner) = dropTrailNl b :=
  subAux_citeLine b _ (Nat.le_refl _) hb hin

theorem strip_dropTrailNl (x : List Char) :
    stripChars (dropTrailNl x) = stripChars x := by
  have hx : dropTrailNl x ++ (x.reverse.takeWhile (fun c => c = '\n')).reverse = x := by
    rw [dropTrailNl, ← List.reverse_append, List.takeWhile_append_dropWhile,
      List.reverse_reverse]
  conv_rhs => rw [← hx]
  rw [strip_append_right_ws]
  intro cch hc
  have := List.mem_takeWhile_imp (List.mem_reverse.1 hc)
  have hcc : cch = '\n' := by simpa using this
  subst hcc
  rfl

/-! ## Passage-dictionary lemmas -/

theorem find?_reverse_nodup : ∀ (cs : List Passage) (p : Passage),
    (cs.map Passage.id).Nodup → p ∈ cs →
    cs.reverse.find? (fun q => q.id == p.id) = some p := by
  intro cs
  induction cs with
  | nil => intro p _ hp; simp at hp
  | cons q t ih =>
    intro p hnd hp
    simp only [List.map_cons, List.nodup_cons] at hnd
    rcases List.mem_cons.1 hp with rfl | hp
    · have hnone : t.reverse.find? (fun x => x.id == p.id) = none := by
        apply List.find?_eq_none.2
        intro x hx hbeq
        have hxt : x ∈ t := List.mem_reverse.1 hx
        have : x.id = p.id := by simpa using hbeq
        exact hnd.1 (this ▸ List.mem_map_of_mem Passage.id hxt)
      rw [List.reverse_cons, List.find?_append, hnone]
      simp [List.find?]
    · have hfind := ih p hnd.2 hp
      rw [List.reverse_cons, List.find?_append, hfind]
      rfl

theorem dictGet_mem {cs : List Passage} {p : Passage}
    (hnd : (cs.map Passage.id).Nodup) (hp : p ∈ cs) :
    dictGet cs (PId.num p.id) = some ⟨p.source, p.text⟩ := by
  rw [dictGet, find?_reverse_nodup cs p hnd hp]

theorem dictGet_not_mem {cs : List Passage} {n : Nat} (h : n ∉ cs.map Passage.id) :
    dictGet cs (PId.num n) = none := by
  have hnone : cs.reverse.find? (fun q => q.id == n) = none := by
    apply List.find?_eq_none.2
    intro x hx hbeq
    have : x.id = n := by simpa using hbeq
    exact h (this ▸ List.mem_map_of_mem Passage.id (List.mem_reverse.1 hx))
  rw [dictGet, hnone]

theorem buildLinks_map_of_mem {cs : List Passage}
    (hnd : (cs.map Passage.id).Nodup) :
    ∀ l : List Passage, (∀ c ∈ l, c ∈ cs) →
      buildLinks cs (l.map fun c => PId.num c.id)
        = l.map fun c => (⟨c.source, c.text⟩ : AnswerSourceLink) := by
  intro l
  induction l with
  | nil => intro _; rfl
  | cons c t ih =>
    intro h
    have hc := dictGet_mem hnd (h c (List.mem_cons_self c t))
    simp only [List.map_cons, buildLinks, List.filterMap_cons, hc]
    have := ih fun x hx => h x (List.mem_cons_of_mem c hx)
    rw [buildLinks] at this
    rw [this]

/-! ## The extraction round-trip for a well-formed citation line -/

theorem extract_citeLine (cs : List Passage) (body inner : List Char)
    (hb : hasSub sourcesLit body = false)
    (hin : ∀ c ∈ inner, c ≠ ']' ∧ c ≠ '\n') :
    extractSources cs (stripChars (body ++ '\n' :: citeLine inner)) =
      ⟨stripChars body, buildLinks cs (parseSourceIds (stripChars inner))⟩ := by
  have hshape : body ++ '\n' :: citeLine inner
      = (body ++ '\n' :: (sourcesLit ++ ' ' :: '[' :: inner)) ++ [']'] := by
    simp [citeLine]
  have hrs : rstripChars (body ++ '\n' :: citeLine inner)
      = body ++ '\n' :: citeLine inner := by
    rw [hshape]
    exact rstrip_of_last_not_ws (by rfl)
  have hstrip : stripChars (body ++ '\n' :: citeLine inner)
      = lstripChars (body ++ '\n' :: citeLine inner) := by
    rw [stripChars, hrs]
  by_cases hlb : lstripChars body = []
  · -- the body is pure whitespace: stripping leaves the bare citation line
    have hall : ∀ x ∈ body, isPySpace x = true := List.dropWhile_eq_nil_iff.1 hlb
    have haf : stripChars (body ++ '\n' :: citeLine inner) = citeLine inner := by
      rw [hstrip, lstrip_append_of_all_ws hall,
        show citeLine inner
          = 'S' :: ('O' :: 'U' :: 'R' :: 'C' :: 'E' :: 'S' :: ':' :: ' ' :: '['
            :: (inner ++ [']'])) from by simp [citeLine, sourcesLit]]
      rfl
    have hmc : matchSourcesHere (citeLine inner) = some (inner, []) := by
      simpa using matchSourcesHere_citeLine [] hin
    have hsearch : searchSources (citeLine inner) = some ([], inner, []) := by
      rw [show citeLine inner
          = 'S' :: ('O' :: 'U' :: 'R' :: 'C' :: 'E' :: 'S' :: ':' :: ' ' :: '['
            :: (inner ++ [']'])) from by simp [citeLine, sourcesLit]] at hmc ⊢
      exact searchSources_cons_of_match hmc
    have hmsub : matchSubHere (citeLine inner) = some [] := by
      simpa using matchSubHere_citeLine_all_nl (b := []) (by simp) hin
    have hsub : subSourcesSub (citeLine inner) = [] := by
      show subSourcesSubAux (citeLine inner).length (citeLine inner) = []
      rw [show citeLine inner
          = 'S' :: ('O' :: 'U' :: 'R' :: 'C' :: 'E' :: 'S' :: ':' :: ' ' :: '['
            :: (inner ++ [']'])) from by simp [citeLine, sourcesLit]] at hmsub ⊢
      rw [List.length_cons, subSourcesSubAux, hmsub]
      exact subAux_nil _
    have hbody : stripChars body = [] := by
      rw [stripChars, rstrip_eq_nil_of_all_ws hall]
      rfl
    rw [haf, extractSources, hsearch, hsub, hbody]
    rfl
  · -- the body keeps a non-whitespace core
    have haf : stripChars (body ++ '\n' :: citeLine inner)
        = lstripChars body ++ '\n' :: citeLine inner := by
      rw [hstrip, lstrip_append_of_ne hlb]
    have hbsub : hasSub sourcesLit (lstripChars body) = false := hasSub_dropWhile _ hb
    have hsearch := searchSources_citeLine hbsub hin
    have hsub := subSources_citeLine hbsub hin
    rw [haf, extractSources, hsearch, hsub, strip_dropTrailNl, strip_lstrip]

/-! ## Claim C5 -/

/-- C5 is false as stated: a completion output that begins with the
sentinel `NO_DOCUMENTS_FOUND` and contains the citation line
`SOURCES: [2,5]`, with passages 2 and 5 among the retrieved set, makes
the operation return the fixed no-results response with an empty
citation list — the sentinel prefix check of main.py line 148 fires
before the `SOURCES` parsing of line 153 — not the claimed citation
pairs for ids 2 and 5. -/
theorem c5_counterexample :
    searchSources (stripChars "NO_DOCUMENTS_FOUND\nSOURCES: [2,5]".toList)
      = some ("NO_DOCUMENTS_FOUND\n".toList, "2,5".toList, [])
    ∧ afterCompletion [⟨2, "t2".toList, "u2".toList⟩, ⟨5, "t5".toList, "u5".toList⟩]
        (some "NO_DOCUMENTS_FOUND\nSOURCES: [2,5]".toList)
      = .ok ⟨noRelevantMsg, []⟩
    ∧ ([] : List AnswerSourceLink)
      ≠ [⟨"u2".toList, "t2".toList⟩, ⟨"u5".toList, "t5".toList⟩] :=
  ⟨rfl, rfl, by decide⟩

theorem strip_body_citeLine (body inner : List Char) :
    stripChars (body ++ '\n' :: citeLine inner)
      = lstripChars (body ++ '\n' :: citeLine inner) := by
  have hshape : body ++ '\n' :: citeLine inner
      = (body ++ '\n' :: (sourcesLit ++ ' ' :: '[' :: inner)) ++ [']'] := by
    simp [citeLine]
  have hrs : rstripChars (body ++ '\n' :: citeLine inner)
      = body ++ '\n' :: citeLine inner := by
    rw [hshape]
    exact rstrip_of_last_not_ws (by rfl)
  rw [stripChars, hrs]

theorem sentinel_not_citeLine (inner : List Char) :
    beginsWith sentinelTok (citeLine inner) = false := by
  rw [show citeLine inner
      = 'S' :: ('O' :: 'U' :: 'R' :: 'C' :: 'E' :: 'S' :: ':' :: ' ' :: '['
        :: (inner ++ [']'])) from by simp [citeLine, sourcesLit]]
  rfl

theorem sentinel_check_citeLine {body : List Char} (inner : List Char)
    (hsent : beginsWith sentinelTok (lstripChars body) = false) :
    beginsWith sentinelTok (stripChars (body ++ '\n' :: citeLine inner)) = false := by
  rw [strip_body_citeLine]
  by_cases hlb : lstripChars body = []
  · rw [lstrip_append_of_all_ws (List.dropWhile_eq_nil_iff.1 hlb),
      show citeLine inner
        = 'S' :: ('O' :: 'U' :: 'R' :: 'C' :: 'E' :: 'S' :: ':' :: ' ' :: '['
          :: (inner ++ [']'])) from by simp [citeLine, sourcesLit]]
    exact sentinel_not_citeLine (inner ++ [']'])
  · rw [lstrip_append_of_ne hlb]
    have h1 := expectSeq_eq_none_of_beginsWith_false hsent
    have h2 := expectSeq_none_append (citeLine inner) (by decide) h1
    simp [beginsWith, h2]

/-- The query operation on a well-formed, non-sentinel answer carrying a
citation line: the sentinel check passes and the attribution step runs. -/
theorem afterCompletion_citeLine (cs : List Passage) (body inner : List Char)
    (hb : hasSub sourcesLit body = false)
    (hin : ∀ c ∈ inner, c ≠ ']' ∧ c ≠ '\n')
    (hsent : beginsWith sentinelTok (lstripChars body) = false) :
    afterCompletion cs (some (body ++ '\n' :: citeLine inner))
      = .ok ⟨stripChars body, buildLinks cs (parseSourceIds (stripChars inner))⟩ := by
  have hcode := sentinel_check_citeLine inner hsent
  simp only [afterCompletion, hcode, Bool.false_eq_true, if_false]
  rw [extract_citeLine cs body inner hb hin]

/-- C5 amended: for a completion output made of a body (free of other
`SOURCES:` occurrences and not beginning, after leading whitespace, with
the sentinel `NO_DOCUMENTS_FOUND`) followed by the citation line
`SOURCES: [2,5]`, where passages with ids 2 and 5 are among the
retrieved set (with distinct ids), the query operation returns exactly
the url/text pairs of ids 2 and 5 in that order, with the citation line
removed from the stripped answer text; and a hallucinated id 9 in
`SOURCES: [2,9,5]` is silently dropped, leaving the same citation list
without failing the request.  An output beginning with the sentinel is
instead intercepted into the fixed no-results response
(`c5_counterexample`). -/
theorem c5_amended_attribution (body : List Char) (cs : List Passage)
    (p2 p5 : Passage)
    (hb : hasSub sourcesLit body = false)
    (hnd : (cs.map Passage.id).Nodup)
    (hp2 : p2 ∈ cs) (hid2 : p2.id = 2)
    (hp5 : p5 ∈ cs) (hid5 : p5.id = 5)
    (h9 : 9 ∉ cs.map Passage.id)
    (hsent : beginsWith sentinelTok (lstripChars body) = false) :
    afterCompletion cs (some (body ++ "\nSOURCES: [2,5]".toList))
      = .ok ⟨stripChars body, [⟨p2.source, p2.text⟩, ⟨p5.source, p5.text⟩]⟩
    ∧ afterCompletion cs (some (body ++ "\nSOURCES: [2,9,5]".toList))
      = .ok ⟨stripChars body, [⟨p2.source, p2.text⟩, ⟨p5.source, p5.text⟩]⟩ := by
  have heq1 : "\nSOURCES: [2,5]".toList = '\n' :: citeLine ['2', ',', '5'] := rfl
  have heq2 : "\nSOURCES: [2,9,5]".toList
      = '\n' :: citeLine ['2', ',', '9', ',', '5'] := rfl
  have hd2 : dictGet cs (PId.num 2) = some ⟨p2.source, p2.text⟩ := by
    rw [← hid2]; exact dictGet_mem hnd hp2
  have hd5 : dictGet cs (PId.num 5) = some ⟨p5.source, p5.text⟩ := by
    rw [← hid5]; exact dictGet_mem hnd hp5
  have hd9 : dictGet cs (PId.num 9) = none := dictGet_not_mem h9
  constructor
  · rw [heq1, afterCompletion_citeLine cs body _ hb (by decide) hsent]
    have hparse : parseSourceIds (stripChars ['2', ',', '5'])
        = [PId.num 2, PId.num 5] := rfl
    rw [hparse]
    simp [buildLinks, hd2, hd5]
  · rw [heq2, afterCompletion_citeLine cs body _ hb (by decide) hsent]
    have hparse : parseSourceIds (stripChars ['2', ',', '9', ',', '5'])
        = [PId.num 2, PId.num 9, PId.num 5] := rfl
    rw [hparse]
    simp [buildLinks, hd2, hd9, hd5]

/-- Witness for C5 amended at a concrete answer and retrieved set. -/
theorem c5_amended_attribution_witness :
    afterCompletion [⟨2, "t2".toList, "u2".toList⟩, ⟨5, "t5".toList, "u5".toList⟩]
        (some ("The answer.".toList ++ "\nSOURCES: [2,5]".toList))
      = .ok ⟨stripChars "The answer.".toList,
          [⟨"u2".toList, "t2".toList⟩, ⟨"u5".toList, "t5".toList⟩]⟩ :=
  (c5_amended_attribution "The answer.".toList
    [⟨2, "t2".toList, "u2".toList⟩, ⟨5, "t5".toList, "u5".toList⟩]
    ⟨2, "t2".toList, "u2".toList⟩ ⟨5, "t5".toList, "u5".toList⟩
    (by decide) (by decide) (by decide) rfl (by decide) rfl (by decide) (by decide)).1

/-! ## Claim C6 -/

/-- C6 is false as stated: the completion output `NO_DOCUMENTS_FOUND`
contains no `SOURCES:` line, yet the operation returns the fixed
no-results response with an empty citation list (the sentinel check fires
first), not the full answer with all retrieved passages; moreover an
output with surrounding whitespace is returned stripped, not unchanged. -/
theorem c6_counterexample :
    (searchSources (stripChars "NO_DOCUMENTS_FOUND".toList) = none
      ∧ afterCompletion [⟨1, "t".toList, "u".toList⟩]
          (some "NO_DOCUMENTS_FOUND".toList) = .ok ⟨noRelevantMsg, []⟩
      ∧ ((Except.ok (QueryResponse.mk noRelevantMsg []) : Except HErr QueryResponse)
          ≠ .ok ⟨"NO_DOCUMENTS_FOUND".toList, [⟨"u".toList, "t".toList⟩]⟩))
    ∧ (searchSources (stripChars " x ".toList) = none
      ∧ afterCompletion [⟨1, "t".toList, "u".toList⟩] (some " x ".toList)
          = .ok ⟨"x".toList, [⟨"u".toList, "t".toList⟩]⟩
      ∧ "x".toList ≠ " x ".toList) := by
  refine ⟨⟨rfl, rfl, fun h => ?_⟩, ⟨rfl, rfl, by decide⟩⟩
  have h2 := congrArg QueryResponse.answer (Except.ok.inj h)
  exact absurd h2 (by decide)

/-- C6 amended: for a completion output with no `SOURCES:` line whose
stripped text does not begin with the sentinel `NO_DOCUMENTS_FOUND`,
given retrieved passages with distinct ids, the operation returns the
whitespace-stripped answer text and a citation list equal to the entire
retrieved passage set, in retrieval order. -/
theorem c6_amended_fail_open (cs : List Passage) (raw : List Char)
    (hnd : (cs.map Passage.id).Nodup)
    (hns : searchSources (stripChars raw) = none)
    (hsent : beginsWith sentinelTok (stripChars raw) = false) :
    afterCompletion cs (some raw)
      = .ok ⟨stripChars raw,
          cs.map fun c => (⟨c.source, c.text⟩ : AnswerSourceLink)⟩ := by
  simp only [afterCompletion, hsent, Bool.false_eq_true, if_false, extractSources, hns]
  rw [buildLinks_map_of_mem hnd cs fun c hc => hc]

/-- Witness for C6 amended at a concrete output. -/
theorem c6_amended_fail_open_witness :
    afterCompletion [⟨1, "t".toList, "u".toList⟩] (some "the answer".toList)
      = .ok ⟨stripChars "the answer".toList,
          [(⟨1, "t".toList, "u".toList⟩ : Passage)].map
            fun c => (⟨c.source, c.text⟩ : AnswerSourceLink)⟩ :=
  c6_amended_fail_open [⟨1, "t".toList, "u".toList⟩] "the answer".toList
    (by decide) rfl rfl

/-! ## Claim C7 -/

theorem process_topic_inv (w : World) (s e : Int) (chk : List RawPost) :
    ∀ (pids existing : List Nat) (st : CrawlState),
    (∀ pid ∈ pids, pid ∈ chk.map RawPost.id → pid ∈ existing) →
    (∀ p ∈ chk, p ∈ st.all_posts) →
    (∀ pid ∈ st.fetched, pid ∉ chk.map RawPost.id) →
    (∀ p ∈ chk, p ∈ (process_topic_posts w s e existing pids st).all_posts)
    ∧ (∀ pid ∈ (process_topic_posts w s e existing pids st).fetched,
        pid ∉ chk.map RawPost.id) := by
  intro pids
  induction pids with
  | nil => intro existing st _ h1 h2; exact ⟨h1, h2⟩
  | cons pid rest ih =>
    intro existing st hH h1 h2
    have hHrest : ∀ q ∈ rest, q ∈ chk.map RawPost.id → q ∈ existing :=
      fun q hq => hH q (List.mem_cons_of_mem pid hq)
    by_cases hex : pid ∈ existing
    · rw [process_topic_posts, if_pos hex]
      exact ih existing st hHrest h1 h2
    · simp only [process_topic_posts, if_neg hex]
      have hpid : pid ∉ chk.map RawPost.id := fun hmem =>
        hex (hH pid (List.mem_cons_self pid rest) hmem)
      have h2' : ∀ q ∈ st.fetched ++ [pid], q ∉ chk.map RawPost.id := by
        intro q hq
        rcases List.mem_append.1 hq with hq | hq
        · exact h2 q hq
        · simp only [List.mem_singleton] at hq
          exact hq ▸ hpid
      by_cases hwin : (w.details pid).created_at < s ∨ e < (w.details pid).created_at
      · rw [if_pos hwin]
        exact ih existing _ hHrest h1 h2'
      · rw [if_neg hwin]
        refine ih existing _ hHrest ?_ h2'
        intro p hp
        exact List.mem_append.2 (Or.inl (h1 p hp))

theorem processSearch_inv (w : World) (s e : Int) (chk : List RawPost)
    (Hstream : ∀ t p, p ∈ w.stream t → (w.details p).topic_id = t)
    (Hchk : ∀ q ∈ chk, q.topic_id = (w.details q.id).topic_id) :
    ∀ (sps : List SearchPost) (st : CrawlState),
    (∀ p ∈ chk, p ∈ st.all_posts) →
    (∀ pid ∈ st.fetched, pid ∉ chk.map RawPost.id) →
    (∀ p ∈ chk, p ∈ (processSearchPosts w s e sps st).2.all_posts)
    ∧ (∀ pid ∈ (processSearchPosts w s e sps st).2.fetched,
        pid ∉ chk.map RawPost.id) := by
  intro sps
  induction sps with
  | nil => intro st h1 h2; exact ⟨h1, h2⟩
  | cons sp rest ih =>
    intro st h1 h2
    by_cases hold : sp.created_at < s
    · rw [processSearchPosts, if_pos hold]
      exact ⟨h1, h2⟩
    · by_cases hend : sp.created_at ≤ e
      · rw [processSearchPosts, if_neg hold, if_pos hend]
        have hH : ∀ pid ∈ w.stream sp.topic_id, pid ∈ chk.map RawPost.id →
            pid ∈ ((st.all_posts.filter fun p => p.topic_id == sp.topic_id).map
              RawPost.id) := by
          intro pid hpid hmem
          rcases List.mem_map.1 hmem with ⟨q, hq, hqid⟩
          have hq1 : q ∈ st.all_posts := h1 q hq
          have hq2 : q.topic_id = sp.topic_id := by
            rw [Hchk q hq, hqid, Hstream sp.topic_id pid hpid]
          have hqf : q ∈ st.all_posts.filter fun p => p.topic_id == sp.topic_id :=
            List.mem_filter.2 ⟨hq1, by simp [hq2]⟩
          exact hqid ▸ List.mem_map_of_mem RawPost.id hqf
        have hstep := process_topic_inv w s e chk (w.stream sp.topic_id) _ st hH h1 h2
        exact ih _ hstep.1 hstep.2
      · rw [processSearchPosts, if_neg hold, if_neg hend]
        exact ih st h1 h2

theorem scrapePages_inv (w : World) (s e : Int) (chk : List RawPost)
    (Hstream : ∀ t p, p ∈ w.stream t → (w.details p).topic_id = t)
    (Hchk : ∀ q ∈ chk, q.topic_id = (w.details q.id).topic_id) :
    ∀ (pages : List (List SearchPost)) (st : CrawlState),
    (∀ p ∈ chk, p ∈ st.all_posts) →
    (∀ pid ∈ st.fetched, pid ∉ chk.map RawPost.id) →
    ∀ pid ∈ (scrapePages w s e pages st).fetched, pid ∉ chk.map RawPost.id := by
  intro pages
  induction pages with
  | nil => intro st _ h2; exact h2
  | cons pg rest ih =>
    intro st h1 h2
    by_cases hpg : pg.isEmpty
    · rw [scrapePages, if_pos hpg]
      exact h2
    · rw [scrapePages, if_neg hpg]
      have hstep := processSearch_inv w s e chk Hstream Hchk pg st h1 h2
      cases hres : processSearchPosts w s e pg st with
      | mk b st' =>
        rw [hres] at hstep
        cases b
        · exact ih st' hstep.1 hstep.2
        · exact hstep.2

/-- C8: for a crawl started from any merged checkpoint (consolidated
snapshot plus line-delimited logs), assuming the remote world is
consistent — every post id in a topic's stream has that topic in its
details, and checkpoint entries record their post's true topic — no post
id present in the merged checkpoint is ever passed to
`fetch_post_details`; only unseen ids are fetched. -/
theorem c8_resume_no_refetch (w : World) (full ld : List RawPost) (s e : Int)
    (pid : Nat)
    (Hstream : ∀ t p, p ∈ w.stream t → (w.details p).topic_id = t)
    (Hchk : ∀ q ∈ load_existing_posts full ld,
      q.topic_id = (w.details q.id).topic_id)
    (hfetched : pid ∈ (scrape_discourse w full ld s e).fetched) :
    pid ∉ (load_existing_posts full ld).map RawPost.id :=
  scrapePages_inv w s e (load_existing_posts full ld) Hstream Hchk w.pages
    ⟨load_existing_posts full ld, []⟩ (fun _ hp => hp) (by simp) pid hfetched

/-- Witness for C8: a world with one checkpointed post (id 1) and one new
post (id 2) in the same topic; the run fetches exactly id 2, and the
theorem shows the fetched id is not a checkpointed one. -/
theorem c8_resume_no_refetch_witness :
    2 ∉ (load_existing_posts [⟨1, 7, 10⟩] []).map RawPost.id :=
  c8_resume_no_refetch
    ⟨[[⟨7, 10⟩]],
     fun t => if t = 7 then [1, 2] else [],
     fun p => if p = 1 then ⟨1, 7, 10⟩ else if p = 2 then ⟨2, 7, 11⟩ else ⟨p, 0, 0⟩⟩
    [⟨1, 7, 10⟩] [] 0 100 2
    (by
      intro t p hp
      by_cases ht : t = 7
      · subst ht
        simp only [if_pos rfl] at hp
        simp at hp
        rcases hp with rfl | rfl <;> rfl
      · simp [ht] at hp)
    (by decide)
    (by decide)

/-! ## Claim C9 -/

theorem process_topic_window (w : World) (s e : Int) :
    ∀ (pids existing : List Nat) (st : CrawlState),
    st.all_posts = (st.fetched.map w.details).filter (inWindow s e) →
    (process_topic_posts w s e existing pids st).all_posts
      = ((process_topic_posts w s e existing pids st).fetched.map w.details).filter
          (inWindow s e) := by
  intro pids
  induction pids with
  | nil => intro existing st h; exact h
  | cons pid rest ih =>
    intro existing st h
    by_cases hex : pid ∈ existing
    · rw [process_topic_posts, if_pos hex]
      exact ih existing st h
    · simp only [process_topic_posts, if_neg hex]
      by_cases hwin : (w.details pid).created_at < s ∨ e < (w.details pid).created_at
      · rw [if_pos hwin]
        refine ih existing _ ?_
        show st.all_posts = ((st.fetched ++ [pid]).map w.details).filter (inWindow s e)
        rw [List.map_append, List.filter_append, ← h]
        have hfalse : inWindow s e (w.details pid) = false := by
          rcases hwin with hw | hw <;> simp [inWindow] <;> omega
        simp [hfalse]
      · rw [if_neg hwin]
        refine ih existing _ ?_
        show st.all_posts ++ [w.details pid]
          = ((st.fetched ++ [pid]).map w.details).filter (inWindow s e)
        rw [List.map_append, List.filter_append, ← h]
        have htrue : inWindow s e (w.details pid) = true := by
          push_neg at hwin
          simp only [inWindow, Bool.and_eq_true, decide_eq_true_eq]
          omega
        simp [htrue]

theorem processSearch_window (w : World) (s e : Int) :
    ∀ (sps : List SearchPost) (st : CrawlState),
    st.all_posts = (st.fetched.map w.details).filter (inWindow s e) →
    (processSearchPosts w s e sps st).2.all_posts
      = ((processSearchPosts w s e sps st).2.fetched.map w.details).filter
          (inWindow s e) := by
  intro sps
  induction sps with
  | nil => intro st h; exact h
  | cons sp rest ih =>
    intro st h
    by_cases hold : sp.created_at < s
    · rw [processSearchPosts, if_pos hold]
      exact h
    · by_cases hend : sp.created_at ≤ e
      · rw [processSearchPosts, if_neg hold, if_pos hend]
        exact ih _ (process_topic_window w s e _ _ st h)
      · rw [processSearchPosts, if_neg hold, if_neg hend]
        exact ih st h

theorem scrapePages_window (w : World) (s e : Int) :
    ∀ (pages : List (List SearchPost)) (st : CrawlState),
    st.all_posts = (st.fetched.map w.details).filter (inWindow s e) →
    (scrapePages w s e pages st).saved
      = ((scrapePages w s e pages st).fetched.map w.details).filter (inWindow s e) := by
  intro pages
  induction pages with
  | nil => intro st h; exact h
  | cons pg rest ih =>
    intro st h
    by_cases hpg : pg.isEmpty
    · rw [scrapePages, if_pos hpg]
      exact h
    · rw [scrapePages, if_neg hpg]
      have hstep := processSearch_window w s e pg st h
      cases hres : processSearchPosts w s e pg st with
      | mk b st' =>
        rw [hres] at hstep
        cases b
        · exact ih st' hstep
        · exact hstep

theorem processSearch_early_stop (w : World) (s e : Int) :
    ∀ (pre : List SearchPost) (old : SearchPost) (rest : List SearchPost)
      (st : CrawlState),
    old.created_at < s → (∀ sp ∈ pre, ¬ sp.created_at < s) →
    processSearchPosts w s e (pre ++ old :: rest) st
      = (true, (processSearchPosts w s e pre st).2)
    ∧ (processSearchPosts w s e pre st).1 = false := by
  intro pre
  induction pre with
  | nil =>
    intro old rest st hold _
    rw [List.nil_append]
    refine ⟨?_, rfl⟩
    have h1 : processSearchPosts w s e (old :: rest) st = (true, st) := by
      rw [processSearchPosts, if_pos hold]
    rw [h1]
    rfl
  | cons sp pre' ih =>
    intro old rest st hold hpre
    have hsp : ¬ sp.created_at < s := hpre sp (List.mem_cons_self sp pre')
    have hrest : ∀ x ∈ pre', ¬ x.created_at < s :=
      fun x hx => hpre x (List.mem_cons_of_mem sp hx)
    by_cases hend : sp.created_at ≤ e
    · rw [List.cons_append, processSearchPosts, if_neg hsp, if_pos hend,
        processSearchPosts, if_neg hsp, if_pos hend]
      exact ih old rest _ hold hrest
    · rw [List.cons_append, processSearchPosts, if_neg hsp, if_neg hend,
        processSearchPosts, if_neg hsp, if_neg hend]
      exact ih old rest st hold hrest

/-- C9: (a) in a crawl run started from an empty checkpoint, the final
consolidated snapshot consists of exactly the fetched posts whose
`created_at` lies in the inclusive window — a fetched post is retained if
and only if its timestamp is in `[start, end]`; (b) encountering a
search-result post older than `start` (after a prefix of non-old posts on
the first page) terminates the crawl immediately: whatever follows on
that page and on later pages, the run returns the consolidated snapshot
of all posts collected so far. -/
theorem c9_boundary_policy :
    (∀ (w : World) (s e : Int),
      (scrape_discourse w [] [] s e).saved
        = ((scrape_discourse w [] [] s e).fetched.map w.details).filter (inWindow s e))
    ∧ (∀ (w : World) (full ld : List RawPost) (s e : Int)
        (pre : List SearchPost) (old : SearchPost) (rest : List SearchPost)
        (more : List (List SearchPost)),
      w.pages = (pre ++ old :: rest) :: more →
      old.created_at < s →
      (∀ sp ∈ pre, ¬ sp.created_at < s) →
      scrape_discourse w full ld s e =
        ⟨(processSearchPosts w s e pre ⟨load_existing_posts full ld, []⟩).2.all_posts,
         (processSearchPosts w s e pre ⟨load_existing_posts full ld, []⟩).2.fetched⟩) := by
  constructor
  · intro w s e
    exact scrapePages_window w s e w.pages ⟨load_existing_posts [] [], []⟩ rfl
  · intro w full ld s e pre old rest more hpages hold hpre
    have hstop := processSearch_early_stop w s e pre old rest
      ⟨load_existing_posts full ld, []⟩ hold hpre
    have hne : (pre ++ old :: rest).isEmpty = false := by
      cases pre <;> rfl
    rw [scrape_discourse, hpages, scrapePages, if_neg (by rw [hne]; exact
      Bool.false_ne_true), hstop.1]

/-- Witness for C9 at a concrete world: one in-window search post, then a
post older than the window start, then unreachable material. -/
theorem c9_boundary_policy_witness :
    scrape_discourse
      ⟨[[⟨7, 10⟩, ⟨9, -5⟩, ⟨8, 50⟩], [⟨6, 20⟩]],
       fun t => if t = 7 then [1, 2] else [3],
       fun p => if p = 1 then ⟨1, 7, 10⟩ else if p = 2 then ⟨2, 7, 11⟩ else ⟨p, 0, 200⟩⟩
      [] [] 0 100 =
    ⟨(processSearchPosts
        ⟨[[⟨7, 10⟩, ⟨9, -5⟩, ⟨8, 50⟩], [⟨6, 20⟩]],
         fun t => if t = 7 then [1, 2] else [3],
         fun p => if p = 1 then ⟨1, 7, 10⟩ else if p = 2 then ⟨2, 7, 11⟩ else ⟨p, 0, 200⟩⟩
        0 100 [⟨7, 10⟩] ⟨load_existing_posts [] [], []⟩).2.all_posts,
     (processSearchPosts
        ⟨[[⟨7, 10⟩, ⟨9, -5⟩, ⟨8, 50⟩], [⟨6, 20⟩]],
         fun t => if t = 7 then [1, 2] else [3],
         fun p => if p = 1 then ⟨1, 7, 10⟩ else if p = 2 then ⟨2, 7, 11⟩ else ⟨p, 0, 200⟩⟩
        0 100 [⟨7, 10⟩] ⟨load_existing_posts [] [], []⟩).2.fetched⟩ :=
  c9_boundary_policy.2
    ⟨[[⟨7, 10⟩, ⟨9, -5⟩, ⟨8, 50⟩], [⟨6, 20⟩]],
     fun t => if t = 7 then [1, 2] else [3],
     fun p => if p = 1 then ⟨1, 7, 10⟩ else if p = 2 then ⟨2, 7, 11⟩ else ⟨p, 0, 200⟩⟩
    [] [] 0 100 [⟨7, 10⟩] ⟨9, -5⟩ [⟨8, 50⟩] [[⟨6, 20⟩]] rfl (by decide) (by decide)

end VirtualTA
